import Mathlib

/-!
Verification of the GameKeeper record-reconciliation engine.

Shallow embedding of the core modules (`src/core/normalize.ts`,
`src/core/overrides.ts`, `src/core/deduplicate.ts`, `src/core/suggestions.ts`,
`src/core/xbox-gamepass.ts`) as executable Lean definitions, followed by
theorems settling the specified properties.

Strings are modelled through their character lists.  JavaScript regular
expression replacement with the patterns used by the source is embedded as an
explicit left-to-right scanner with word-boundary tests, and `Array.sort`
(stable by the ECMAScript specification, hence uniquely determined by the
comparator) is realised by `List.insertionSort`.  JavaScript `Date` values are
modelled as integer millisecond timestamps and are threaded explicitly where
the source calls `new Date()`.
-/

namespace GameKeeper

/-! ### Character classes (JavaScript semantics restricted to the relevant characters) -/

/-- `String.prototype.toLowerCase` on the ASCII range (identity elsewhere). -/
def jsToLower (c : Char) : Char :=
  if 65 ≤ c.toNat ∧ c.toNat ≤ 90 then Char.ofNat (c.toNat + 32) else c

/-- Characters removed by `.replace(/[™®©]/g, '')`. -/
def isGlyph (c : Char) : Bool :=
  c == Char.ofNat 8482 || c == Char.ofNat 174 || c == Char.ofNat 169

/-- Characters replaced by a space by `.replace(/[:'-]/g, ' ')`. -/
def isPunctRep (c : Char) : Bool :=
  c == ':' || c == Char.ofNat 39 || c == '-'

/-- Whitespace for `\s` and `trim` (ASCII subset). -/
def isJsWs (c : Char) : Bool :=
  c == ' ' || c == Char.ofNat 9 || c == Char.ofNat 10 ||
  c == Char.ofNat 11 || c == Char.ofNat 12 || c == Char.ofNat 13

/-- Word characters for the `\b` boundary assertion: `[A-Za-z0-9_]`. -/
def isWordChar (c : Char) : Bool :=
  (97 ≤ c.toNat && c.toNat ≤ 122) || (65 ≤ c.toNat && c.toNat ≤ 90) ||
  (48 ≤ c.toNat && c.toNat ≤ 57) || c == '_'

/-! ### `.replace(/\s+/g, ' ')` — collapse whitespace runs to a single space -/

/-- Scanner for whitespace collapsing; the flag records whether the previous
character belonged to a whitespace run already emitted as one space. -/
def collapseGo : Bool → List Char → List Char
  | _, [] => []
  | true, c :: r => if isJsWs c then collapseGo true r else c :: collapseGo false r
  | false, c :: r => if isJsWs c then ' ' :: collapseGo true r else c :: collapseGo false r

def collapseWs (l : List Char) : List Char := collapseGo false l

/-! ### Word-boundary removal scanner

Embeds `.replace(/\b(w1|w2|...)\b/g, '')` for literal alternatives: the
scanner walks the string left to right carrying the `\b` state (whether the
previous original character is a non-word character or the string start),
tries the alternatives in order at each position, requires a trailing
boundary, and removes each match.  As in the regular expression engine, the
boundary state after a removal is determined by the last character of the
removed match. -/

/-- Trailing `\b` after a match ending in a word character: the next original
character is a non-word character, or the string ends. -/
def nonWordHead : List Char → Bool
  | [] => true
  | c :: _ => !isWordChar c

/-- Does the literal alternative `p` match at the head of `l` with a trailing
word boundary? -/
def patOk (l : List Char) (p : List Char) : Bool :=
  (l.take p.length == p) && nonWordHead (l.drop p.length)

/-- First alternative (in the regex alternation order) matching at the head. -/
def findPat (pats : List (List Char)) (l : List Char) : Option (List Char) :=
  pats.find? (patOk l)

/-- The scan; `atB` holds when the previous original character is non-word or
the position is the string start (the left half of `\b` for patterns starting
with a word character).  Fuel is the remaining input length at the top call. -/
def scanGo (pats : List (List Char)) : Nat → Bool → List Char → List Char
  | 0, _, l => l
  | _ + 1, _, [] => []
  | fuel + 1, atB, c :: r =>
    if atB then
      match findPat pats (c :: r) with
      | some p => scanGo pats fuel (!isWordChar (p.getLastD ' ')) ((c :: r).drop p.length)
      | none => c :: scanGo pats fuel (!isWordChar c) r
    else c :: scanGo pats fuel (!isWordChar c) r

def scanStrip (pats : List (List Char)) (l : List Char) : List Char :=
  scanGo pats l.length true l

/-- Alternatives of `.replace(/\b(the|a|an)\b/g, '')`, in alternation order. -/
def articleWords : List (List Char) := [[Char.ofNat 116, Char.ofNat 104, Char.ofNat 101], [Char.ofNat 97], [Char.ofNat 97, Char.ofNat 110]]

/-- First alternative of `.replace(/\b(goty|game of the year edition)\b/g, '')`. -/
def gotyWord : List Char := [Char.ofNat 103, Char.ofNat 111, Char.ofNat 116, Char.ofNat 121]

/-- Second alternative: the literal phrase pattern. -/
def gotyPhrase : List Char :=
  [Char.ofNat 103, Char.ofNat 97, Char.ofNat 109, Char.ofNat 101, Char.ofNat 32,
   Char.ofNat 111, Char.ofNat 102, Char.ofNat 32,
   Char.ofNat 116, Char.ofNat 104, Char.ofNat 101, Char.ofNat 32,
   Char.ofNat 121, Char.ofNat 101, Char.ofNat 97, Char.ofNat 114, Char.ofNat 32,
   Char.ofNat 101, Char.ofNat 100, Char.ofNat 105, Char.ofNat 116, Char.ofNat 105,
   Char.ofNat 111, Char.ofNat 110]

def qualifierWords : List (List Char) := [gotyWord, gotyPhrase]

/-! ### `trim` -/

/-- Remove the trailing whitespace run. -/
def dropTrailingWs (l : List Char) : List Char :=
  l.foldr (fun c acc => if acc.isEmpty && isJsWs c then [] else c :: acc) []

def jsTrim (l : List Char) : List Char := dropTrailingWs (l.dropWhile isJsWs)

/-! ### `normalizeGameName` (src/core/normalize.ts) -/

/-- The normalization pipeline on character lists, step for step as in the
source: lowercase; strip trademark glyphs; punctuation to spaces; collapse
whitespace; remove articles as whole words; remove the qualifier
alternatives as whole words; trim. -/
def normalizeChars (l : List Char) : List Char :=
  jsTrim (scanStrip qualifierWords (scanStrip articleWords (collapseWs
    (((l.map jsToLower).filter (fun c => !isGlyph c)).map
      (fun c => if isPunctRep c then ' ' else c)))))

def normalizeGameName (s : String) : String := ⟨normalizeChars s.data⟩

/-! ### `generateCanonicalId` (src/core/normalize.ts) -/

/-- `[a-z0-9]`, the characters kept by the slug replacement. -/
def isSlugKeep (c : Char) : Bool :=
  (97 ≤ c.toNat && c.toNat ≤ 122) || (48 ≤ c.toNat && c.toNat ≤ 57)

/-- The replacement collapsing runs of hyphens to a single hyphen. -/
def collapseHyphens : Bool → List Char → List Char
  | _, [] => []
  | true, c :: r => if c == '-' then collapseHyphens true r else c :: collapseHyphens false r
  | false, c :: r => if c == '-' then '-' :: collapseHyphens true r else c :: collapseHyphens false r

/-- `.replace(/^-|-$/g, '')`: after hyphen collapsing there is at most one
hyphen at each end; the global regex removes one leading and one trailing
hyphen. -/
def stripEdgeHyphens (l : List Char) : List Char :=
  let l1 := match l with
    | '-' :: r => r
    | _ => l
  match l1.getLast? with
  | some '-' => l1.dropLast
  | _ => l1

def generateCanonicalId (s : String) : String :=
  ⟨stripEdgeHyphens (collapseHyphens false
    ((normalizeChars s.data).map (fun c => if isSlugKeep c then c else '-')))⟩

/-! ### Levenshtein distance (src/core/normalize.ts, dynamic-programming matrix) -/

/-- One row continuation: walks `str1` in lockstep with the previous row,
carrying the diagonal and left cell values. -/
def levAux (c2 : Char) : List Char → Nat → Nat → List Nat → List Nat
  | [], _, _, _ => []
  | _ :: _, _, _, [] => []
  | c1 :: s1, diag, left, up :: prest =>
    let cur := if c2 == c1 then diag else min (diag + 1) (min (left + 1) (up + 1))
    cur :: levAux c2 s1 up cur prest

/-- Row `i` of the matrix, first cell `matrix[i][0] = i`. -/
def levRow (str1 : List Char) (c2 : Char) (prev : List Nat) (i : Nat) : List Nat :=
  i :: levAux c2 str1 (prev.headD 0) i prev.tail

def levLoop (str1 : List Char) : List Char → List Nat → Nat → List Nat
  | [], prev, _ => prev
  | c2 :: s2, prev, i => levLoop str1 s2 (levRow str1 c2 prev (i + 1)) (i + 1)

/-- `levenshteinDistance(str1, str2)`: the final cell of the classic matrix. -/
def levenshteinDistance (s1 s2 : String) : Nat :=
  (levLoop s1.data s2.data (List.range (s1.data.length + 1)) 0).getLastD 0

/-! ### Substring containment (`String.prototype.includes`) -/

def listStartsWith : List Char → List Char → Bool
  | _, [] => true
  | [], _ :: _ => false
  | c :: h, d :: n => c == d && listStartsWith h n

def listContainsSeq : List Char → List Char → Bool
  | [], needle => needle.isEmpty
  | c :: t, needle => listStartsWith (c :: t) needle || listContainsSeq t needle

/-! ### `calculateNameSimilarity` (src/core/normalize.ts) -/

def calculateNameSimilarity (name1 name2 : String) : ℚ :=
  let normalized1 := normalizeGameName name1
  let normalized2 := normalizeGameName name2
  if normalized1 = normalized2 then 1
  else if 10 ≤ normalized1.data.length ∧ 10 ≤ normalized2.data.length ∧
      (listContainsSeq normalized1.data normalized2.data ||
       listContainsSeq normalized2.data normalized1.data) = true then
    19 / 20
  else
    1 - (levenshteinDistance normalized1 normalized2 : ℚ) /
      ((max normalized1.data.length normalized2.data.length : ℕ) : ℚ)

/-! ### Data model (src/types/game.ts) -/

inductive Source
  | steam | xbox | epic | gog | amazon | gamepass | manual
deriving DecidableEq, Repr, Fintype

/-- Platform priority for deduplication (lower number = higher priority). -/
def PLATFORM_PRIORITY : Source → Nat
  | .steam => 1
  | .xbox => 2
  | .epic => 3
  | .gog => 4
  | .amazon => 5
  | .gamepass => 6
  | .manual => 7

/-- The string tag of a source (the TypeScript enum value). -/
def sourceTag : Source → String
  | .steam => "steam"
  | .xbox => "xbox"
  | .epic => "epic"
  | .gog => "gog"
  | .amazon => "amazon"
  | .gamepass => "gamepass"
  | .manual => "manual"

/-- Raw game data from various sources before normalization.  JavaScript
numbers carrying playtime hours are modelled as rationals and `Date` values
as integer millisecond timestamps. -/
structure RawGameData where
  source : Source
  externalId : String
  name : String
  steamAppId : Option Int := none
  playtimeHours : Option ℚ := none
  lastPlayedAt : Option Int := none
  coverImageUrl : Option String := none
  releaseDate : Option Int := none
  genres : Option (List String) := none
deriving DecidableEq, Repr

/-- The unified (canonical) game model. -/
structure UnifiedGame where
  canonicalId : String
  name : String
  primarySource : Source
  ownedSources : List Source
  steamAppId : Option Int := none
  playtimeHours : Option ℚ := none
  lastPlayedAt : Option Int := none
  coverImageUrl : Option String := none
  releaseDate : Option Int := none
  genres : Option (List String) := none
  createdAt : Int
  updatedAt : Int
deriving DecidableEq, Repr

/-- JavaScript truthiness of an optional number: `undefined` and `0` are
falsy (`if (game.steamAppId)`). -/
def jsTruthyNum : Option Int → Bool
  | none => false
  | some v => v != 0

/-- JavaScript truthiness of an optional string: `undefined`, `null` and the
empty string are falsy. -/
def jsTruthyStr : Option String → Bool
  | none => false
  | some s => s ≠ ""

/-- JavaScript `a || b` on optional strings. -/
def jsOrStr (a b : Option String) : Option String :=
  if jsTruthyStr a then a else b

/-- First-insertion-order deduplication, the semantics of
`[...new Set(list)]`. -/
def jsSetGo [DecidableEq α] (seen : List α) : List α → List α
  | [] => []
  | a :: l => if seen.contains a then jsSetGo seen l else a :: jsSetGo (a :: seen) l

def jsSetDedup [DecidableEq α] (l : List α) : List α := jsSetGo [] l

/-! ### Overrides (src/core/overrides.ts)

The module-level `overrides` state (loaded by `loadOverrides`, `null` before)
is threaded explicitly as an `Option GameOverrides` argument. -/

structure ForceMergeRule where
  games : List String
  canonicalName : Option String := none
deriving DecidableEq, Repr

/-- A property-override patch entry: a shallow-merge assignment to one field
of the raw record (`{...game, ...override.properties}` restricted to the
record model). -/
inductive FieldPatch
  | source (v : Source)
  | externalId (v : String)
  | name (v : String)
  | steamAppId (v : Option Int)
  | playtimeHours (v : Option ℚ)
  | lastPlayedAt (v : Option Int)
  | coverImageUrl (v : Option String)
  | releaseDate (v : Option Int)
  | genres (v : Option (List String))
deriving DecidableEq, Repr

def applyPatch (g : RawGameData) : FieldPatch → RawGameData
  | .source v => { g with source := v }
  | .externalId v => { g with externalId := v }
  | .name v => { g with name := v }
  | .steamAppId v => { g with steamAppId := v }
  | .playtimeHours v => { g with playtimeHours := v }
  | .lastPlayedAt v => { g with lastPlayedAt := v }
  | .coverImageUrl v => { g with coverImageUrl := v }
  | .releaseDate v => { g with releaseDate := v }
  | .genres v => { g with genres := v }

structure PropertyOverride where
  matchName : String
  properties : List FieldPatch
deriving DecidableEq, Repr

structure GameOverrides where
  forceMerge : Option (List ForceMergeRule) := none
  propertyOverrides : Option (List PropertyOverride) := none
deriving DecidableEq, Repr

/-- Does a forced-merge rule cover the normalized title `norm`?  Equality or
weak containment (either direction) against any normalized listed variant. -/
def ruleCovers (normalizedGames : List String) (norm : String) : Bool :=
  normalizedGames.any (fun g =>
    g == norm || listContainsSeq norm.data g.data || listContainsSeq g.data norm.data)

def shouldForceMergeGo (norm1 norm2 : String) : List ForceMergeRule → Option String
  | [] => none
  | rule :: rest =>
    let normalizedGames := rule.games.map normalizeGameName
    if ruleCovers normalizedGames norm1 && ruleCovers normalizedGames norm2 then
      jsOrStr rule.canonicalName rule.games.head?
    else shouldForceMergeGo norm1 norm2 rest

/-- `shouldForceMerge(name1, name2)`: the canonical name if the two titles are
covered by a common forced-merge rule, otherwise `null`.  Returns `none` when
no overrides are loaded (`!overrides?.forceMerge`). -/
def shouldForceMerge (ov : Option GameOverrides) (name1 name2 : String) : Option String :=
  match ov with
  | none => none
  | some o =>
    match o.forceMerge with
    | none => none
    | some rules => shouldForceMergeGo (normalizeGameName name1) (normalizeGameName name2) rules

/-- `applyPropertyOverrides(game)`: shallow-merge the first matching override
rule onto the record. -/
def applyPropertyOverrides (ov : Option GameOverrides) (game : RawGameData) : RawGameData :=
  match ov with
  | none => game
  | some o =>
    match o.propertyOverrides with
    | none => game
    | some rules =>
      let normalizedName := normalizeGameName game.name
      match rules.find? (fun r =>
          let matchNormalized := normalizeGameName r.matchName
          normalizedName == matchNormalized ||
          listContainsSeq normalizedName.data matchNormalized.data ||
          listContainsSeq matchNormalized.data normalizedName.data) with
      | some r => r.properties.foldl applyPatch game
      | none => game

/-- `areNamesMatching` (current source): forced merge, then exact equality of
normalized names; no fuzzy or substring matching. -/
def areNamesMatching (ov : Option GameOverrides) (name1 name2 : String) : Bool :=
  if jsTruthyStr (shouldForceMerge ov name1 name2) then true
  else normalizeGameName name1 == normalizeGameName name2

/-! ### Deduplication (src/core/deduplicate.ts)

`Map<string, RawGameData[]>` is modelled as an insertion-ordered association
list with unique keys; `Map.prototype.set` replaces the value in place when
the key exists and appends otherwise. -/

abbrev GameGroups := List (String × List RawGameData)

def mapHasKey (m : GameGroups) (k : String) : Bool := m.any (fun e => e.1 == k)

/-- `gameGroups.get(key).push(game)` for an existing key. -/
def mapPushAt (m : GameGroups) (k : String) (g : RawGameData) : GameGroups :=
  m.map (fun e => if e.1 == k then (e.1, e.2 ++ [g]) else e)

/-- `gameGroups.set(key, v)`. -/
def mapSet (m : GameGroups) (k : String) (v : List RawGameData) : GameGroups :=
  if mapHasKey m k then m.map (fun e => if e.1 == k then (k, v) else e)
  else m ++ [(k, v)]

/-- The name-matching pass: first existing group (in insertion order) whose
representative record `existingGames[0]` matches by name.  Groups are never
empty when produced by `deduplicateGames`; an empty group cannot match. -/
def findNameMatchKey (ov : Option GameOverrides) (name : String) (m : GameGroups) :
    Option String :=
  (m.find? (fun e =>
    match e.2 with
    | [] => false
    | existingGame :: _ => areNamesMatching ov name existingGame.name)).map (·.1)

def dedupStep (ov : Option GameOverrides) (m : GameGroups) (game : RawGameData) :
    GameGroups :=
  if jsTruthyNum game.steamAppId then
    let key := "steam:" ++ toString (game.steamAppId.getD 0)
    if mapHasKey m key then mapPushAt m key game else m ++ [(key, [game])]
  else
    match findNameMatchKey ov game.name m with
    | some existingKey => mapPushAt m existingKey game
    | none => mapSet m ("name:" ++ generateCanonicalId game.name) [game]

/-- `deduplicateGames(rawGames)`. -/
def deduplicateGames (ov : Option GameOverrides) (rawGames : List RawGameData) :
    GameGroups :=
  rawGames.foldl (dedupStep ov) []

/-! ### Merge (src/core/deduplicate.ts) -/

/-- The sort comparator `(a, b) => PLATFORM_PRIORITY[a.source] - PLATFORM_PRIORITY[b.source]`. -/
def byPriority (a b : RawGameData) : Prop :=
  PLATFORM_PRIORITY a.source ≤ PLATFORM_PRIORITY b.source

instance : DecidableRel byPriority := fun a b =>
  inferInstanceAs (Decidable (PLATFORM_PRIORITY a.source ≤ PLATFORM_PRIORITY b.source))

instance : IsTotal RawGameData byPriority := ⟨fun _ _ => Nat.le_total _ _⟩

instance : IsTrans RawGameData byPriority := ⟨fun _ _ _ => Nat.le_trans⟩

/-- `[...games].sort(comparator)`: ECMAScript `Array.prototype.sort` is
stable, and a stable sort under a total preorder has a unique result, here
realised by insertion sort. -/
def sortByPriority (games : List RawGameData) : List RawGameData :=
  List.insertionSort byPriority games

/-- `mergeGameGroup(games)`: merge a group into one unified game; throws on an
empty group (modelled by `Except`).  `now` models the `new Date()` calls. -/
def mergeGameGroup (ov : Option GameOverrides) (now : Int) :
    List RawGameData → Except String UnifiedGame
  | [] => .error ("Cannot merge empty game group")
  | g :: gs =>
    let games := g :: gs
    let sorted := sortByPriority games
    let primary := sorted.headD g
    let allSources := jsSetDedup (sorted.map (·.source))
    let hasXbox := allSources.contains Source.xbox
    let ownedSources := if hasXbox then allSources.filter (fun s => s != Source.gamepass)
      else allSources
    let canonicalId := if jsTruthyNum primary.steamAppId then
        "steam:" ++ toString (primary.steamAppId.getD 0)
      else generateCanonicalId primary.name
    let totalPlaytime : ℚ := games.foldl (fun sum game => sum + game.playtimeHours.getD 0) 0
    let lastPlayedDates := (games.map (·.lastPlayedAt)).reduceOption
    let lastPlayedAt : Option Int := match lastPlayedDates with
      | [] => none
      | d :: ds => some (ds.foldl max d)
    let gameName := if 1 < games.length then
        match shouldForceMerge ov g.name (gs.headD g).name with
        | some canonicalName =>
          if canonicalName ≠ "" ∧ canonicalName ≠ primary.name then canonicalName
          else primary.name
        | none => primary.name
      else primary.name
    .ok {
      canonicalId := canonicalId
      name := gameName
      primarySource := primary.source
      ownedSources := ownedSources
      steamAppId := primary.steamAppId
      playtimeHours := if 0 < totalPlaytime then some totalPlaytime else none
      lastPlayedAt := lastPlayedAt
      coverImageUrl := primary.coverImageUrl
      releaseDate := primary.releaseDate
      genres := primary.genres
      createdAt := now
      updatedAt := now }

/-- `processRawGames(rawGames)`: deduplicate, merge each group, skip groups
whose merge throws (the `try`/`catch` in the source). -/
def processRawGames (ov : Option GameOverrides) (now : Int)
    (rawGames : List RawGameData) : List UnifiedGame :=
  (deduplicateGames ov rawGames).foldl (fun acc e =>
    match mergeGameGroup ov now e.2 with
    | .ok unified => acc ++ [unified]
    | .error _ => acc) []

/-! ### Merge suggestions (src/core/suggestions.ts) -/

structure MergeSuggestion where
  games : List String
  sources : List Source
  similarity : ℚ
  reason : String
deriving DecidableEq, Repr

/-- `Math.round` (half towards positive infinity). -/
def jsRound (q : ℚ) : Int := ⌊q + 1 / 2⌋

/-- The key `${game.name}|${game.source}` of the `processed` set. -/
def suggKey (g : RawGameData) : String := g.name ++ "|" ++ sourceTag g.source

/-- Inner loop over `j` in `i+1..n`.  The `processed` set is consulted but —
as in the source, which never calls `processed.add` — never extended. -/
def suggInner (processed : List String) (game1 : RawGameData) :
    List RawGameData → List MergeSuggestion
  | [] => []
  | game2 :: rest =>
    if processed.contains (suggKey game2) then suggInner processed game1 rest
    else if game1.source == game2.source then suggInner processed game1 rest
    else
      let similarity := calculateNameSimilarity game1.name game2.name
      if 85 / 100 ≤ similarity ∧ similarity < 1 then
        let reason := if 95 / 100 ≤ similarity then
            "Substring match - likely same game with different edition name"
          else if 90 / 100 ≤ similarity then
            "Very high similarity - likely same game with minor name variation"
          else
            "High similarity - possibly same game or related (e.g., sequel)"
        { games := [game1.name, game2.name]
          sources := [game1.source, game2.source]
          similarity := (jsRound (similarity * 100) : ℚ) / 100
          reason := reason } :: suggInner processed game1 rest
      else suggInner processed game1 rest

def suggOuter (processed : List String) : List RawGameData → List MergeSuggestion
  | [] => []
  | game1 :: rest =>
    if processed.contains (suggKey game1) then suggOuter processed rest
    else suggInner processed game1 rest ++ suggOuter processed rest

/-- Sort comparator `(a, b) => b.similarity - a.similarity` (descending). -/
def bySimilarityDesc (a b : MergeSuggestion) : Prop := b.similarity ≤ a.similarity

instance : DecidableRel bySimilarityDesc := fun a b =>
  inferInstanceAs (Decidable (b.similarity ≤ a.similarity))

/-- `generateMergeSuggestions(rawGames)`. -/
def generateMergeSuggestions (rawGames : List RawGameData) : List MergeSuggestion :=
  List.insertionSort bySimilarityDesc (suggOuter [] rawGames)

/-! ### Xbox / Game Pass availability (src/core/xbox-gamepass.ts)

The file-loading collaborators (`loadOwnedXboxGames`, `loadGamePassInterests`,
`loadUnavailableGames`) are modelled as explicit snapshot arguments: the two
sets arrive as lists of normalized names in first-insertion order (the
`Set` semantics of the loaders), and the prior unavailable report as a list.
`nowIso` models `new Date().toISOString()`. -/

structure GamePassGame where
  id : String
  title : String
  available : Bool
deriving DecidableEq, Repr

inductive UnavailReason
  | leftCatalog
  | interestUnavailable
deriving DecidableEq, Repr

structure UnavailableGame where
  name : String
  reason : UnavailReason
  lastSeen : Option String := none
  wasPlayed : Option Bool := none
deriving DecidableEq, Repr

/-- The normalized names of available catalog entries (a JavaScript `Set`,
first-insertion order). -/
def catalogNamesOf (gamePassCatalog : List GamePassGame) : List String :=
  jsSetDedup ((gamePassCatalog.filter (·.available)).map (fun g => normalizeGameName g.title))

/-- Body of the loop over played games: record a played, un-owned Xbox title
absent from the catalog as unavailable with reason `left-catalog`. -/
def gpXboxStep (ownedXbox catalogNames : List String) (nowIso : String)
    (acc : List UnavailableGame) (game : RawGameData) : List UnavailableGame :=
  if game.source != Source.xbox then acc
  else
    let normalizedName := normalizeGameName game.name
    if !ownedXbox.contains normalizedName && !catalogNames.contains normalizedName then
      acc ++ [{ name := game.name, reason := .leftCatalog,
                lastSeen := some nowIso, wasPlayed := some true }]
    else acc

/-- Body of the loop over the interest set: an interest title absent from the
catalog becomes unavailable with reason `interest-unavailable`; one present in
the catalog and in the previous unavailable report is recorded as returned. -/
def gpInterestStep (catalogNames : List String) (currentUnavailable : List UnavailableGame)
    (nowIso : String) (acc : List UnavailableGame × List String) (gameName : String) :
    List UnavailableGame × List String :=
  if !catalogNames.contains gameName then
    (acc.1 ++ [{ name := gameName, reason := .interestUnavailable,
                 lastSeen := some nowIso, wasPlayed := some false }], acc.2)
  else if (currentUnavailable.find? (fun u => normalizeGameName u.name == gameName)).isSome then
    (acc.1, acc.2 ++ [gameName])
  else acc

/-- `processGamePassAvailability(playedGames, gamePassCatalog)` with the
loaded snapshots explicit; returns `(unavailable, returned)`. -/
def processGamePassAvailability (playedGames : List RawGameData)
    (gamePassCatalog : List GamePassGame) (ownedXbox : List String)
    (interests : List String) (currentUnavailable : List UnavailableGame)
    (nowIso : String) : List UnavailableGame × List String :=
  let catalogNames := catalogNamesOf gamePassCatalog
  let xboxUnavailable := playedGames.foldl (gpXboxStep ownedXbox catalogNames nowIso) []
  interests.foldl (gpInterestStep catalogNames currentUnavailable nowIso) (xboxUnavailable, [])

/-! ### Playtime aggregation (for the conservation property) -/

def rawPlaytimeSum (l : List RawGameData) : ℚ :=
  (l.map (fun g => g.playtimeHours.getD 0)).sum

def unifiedPlaytimeSum (l : List UnifiedGame) : ℚ :=
  (l.map (fun u => u.playtimeHours.getD 0)).sum

/-! ### Concrete records used by closed theorems -/

def exPortalSteam : RawGameData :=
  { source := .steam, externalId := "steam-portal", name := "Portal", steamAppId := some 400 }

def exPortalEpic : RawGameData :=
  { source := .epic, externalId := "epic-portal", name := "Portal" }

def exDrMarioSteam : RawGameData :=
  { source := .steam, externalId := "steam-dr", name := "dr. mario", playtimeHours := some 1 }

def exDrMarioEpic : RawGameData :=
  { source := .epic, externalId := "epic-dr", name := "dr mario", playtimeHours := some 2 }

def exSteamOne : RawGameData :=
  { source := .steam, externalId := "s1", name := "x", steamAppId := some 1 }

def exSteamTwo : RawGameData :=
  { source := .steam, externalId := "s2", name := "y", steamAppId := some 2 }

def exVoidheartSteam : RawGameData :=
  { source := .steam, externalId := "steam-hk", name := "Hollow Knight: Voidheart Edition" }

def exHollowEpic : RawGameData :=
  { source := .epic, externalId := "epic-hk", name := "Hollow Knight" }

def exHollowGog : RawGameData :=
  { source := .gog, externalId := "gog-hk", name := "Hollow Knight" }

def exPortalTwoSteam : RawGameData :=
  { source := .steam, externalId := "p2", name := "portal 2" }

def exPortalThreeEpic : RawGameData :=
  { source := .epic, externalId := "p3", name := "portal 3" }

def exXboxHalo : RawGameData :=
  { source := .xbox, externalId := "xb-halo", name := "Halo Infinite" }

def exGamepassHalo : RawGameData :=
  { source := .gamepass, externalId := "gp-halo", name := "Halo Infinite" }

def exOldGameEntry : UnavailableGame :=
  { name := "old game", reason := .leftCatalog, wasPlayed := some true }

def exOldGameCatalog : GamePassGame :=
  { id := "old-game", title := "old game", available := true }

/-- The two suggestions produced for the Hollow Knight triple. -/
def exSuggestionEpic : MergeSuggestion :=
  { games := ["Hollow Knight: Voidheart Edition", "Hollow Knight"]
    sources := [.steam, .epic]
    similarity := 19 / 20
    reason := "Substring match - likely same game with different edition name" }

def exSuggestionGog : MergeSuggestion :=
  { games := ["Hollow Knight: Voidheart Edition", "Hollow Knight"]
    sources := [.steam, .gog]
    similarity := 19 / 20
    reason := "Substring match - likely same game with different edition name" }

/-! ### Word-boundary occurrence predicate

`hasMatch pats atB l` holds when the regex `\\b(p1|p2|...)\\b` has a match
somewhere in `l`, where `atB` tells whether the character preceding `l` is
non-word (or `l` is the string start).  It mirrors `scanGo` without removal
and is the specification of "occurs as a whole word". -/
def hasMatch (pats : List (List Char)) : Bool → List Char → Bool
  | _, [] => false
  | atB, c :: r => (atB && (findPat pats (c :: r)).isSome) || hasMatch pats (!isWordChar c) r

/-- Does `w` occur in `s` as a whole word (with `\\b` boundaries)? -/
def occursWord (w s : String) : Bool := hasMatch [w.data] true s.data

/-- No two adjacent non-word characters (true of every pattern we remove). -/
def noTwoNonWord : List Char → Bool
  | [] => true
  | [_] => true
  | c :: d :: r => (isWordChar c || isWordChar d) && noTwoNonWord (d :: r)

/-- Side conditions on a pattern alternative: non-empty, starts and ends with
a word character, and never has two adjacent non-word characters. -/
def PatSpec (p : List Char) : Prop :=
  p ≠ [] ∧ isWordChar (p.headD ' ') = true ∧ isWordChar (p.getLastD ' ') = true ∧
    noTwoNonWord p = true

def PatsSpec (pats : List (List Char)) : Prop := ∀ p ∈ pats, PatSpec p

/-- Patterns all of whose characters are word characters. -/
def PatsAllWord (pats : List (List Char)) : Prop :=
  ∀ p ∈ pats, p ≠ [] ∧ p.all isWordChar = true

/-- The boundary flag after walking `pre`, starting from `atB`. -/
def flagEnd (pre : List Char) (atB : Bool) : Bool :=
  match pre.getLast? with
  | some e => !isWordChar e
  | none => atB

/-- The character-level stages of the pipeline before whitespace collapsing:
lowercase, strip trademark glyphs, punctuation to spaces. -/
def charStage (l : List Char) : List Char :=
  ((l.map jsToLower).filter (fun c => !isGlyph c)).map
    (fun c => if isPunctRep c then ' ' else c)

/-- A character the character stages leave unchanged. -/
def charP (c : Char) : Bool :=
  jsToLower c == c && !isGlyph c && !isPunctRep c

/-- Every whitespace character is a plain space. -/
def allWsSpace (l : List Char) : Bool :=
  l.all (fun c => !isJsWs c || c == ' ')

/-- No two adjacent whitespace characters. -/
def noAdjWs : List Char → Bool
  | [] => true
  | [_] => true
  | c :: d :: r => !(isJsWs c && isJsWs d) && noAdjWs (d :: r)

/-! ## Theorems -/

/-! ### General helper lemmas -/

theorem string_append_inj {p a b : String} (h : p ++ a = p ++ b) : a = b := by
  cases a with | mk la => cases b with | mk lb =>
  have hd : p.data ++ la = p.data ++ lb := by
    have := congrArg String.data h
    simpa [String.data_append] using this
  exact congrArg String.mk (List.append_cancel_left hd)

theorem mem_jsSetGo [DecidableEq α] (l : List α) (x : α) :
    ∀ seen : List α, x ∈ jsSetGo seen l ↔ x ∈ l ∧ x ∉ seen := by
  induction l with
  | nil => intro seen; simp [jsSetGo]
  | cons a t ih =>
    intro seen
    by_cases hmem : a ∈ seen
    · have : jsSetGo seen (a :: t) = jsSetGo seen t := by
        simp [jsSetGo, hmem]
      rw [this, ih]
      constructor
      · rintro ⟨hx, hs⟩; exact ⟨List.mem_cons_of_mem _ hx, hs⟩
      · rintro ⟨hx, hs⟩
        rcases List.mem_cons.mp hx with rfl | hx
        · exact absurd hmem hs
        · exact ⟨hx, hs⟩
    · have : jsSetGo seen (a :: t) = a :: jsSetGo (a :: seen) t := by
        simp [jsSetGo, hmem]
      rw [this]
      by_cases hxa : x = a
      · subst hxa
        simp [hmem]
      · simp only [List.mem_cons, hxa, false_or]
        rw [ih]
        constructor
        · rintro ⟨hx, hs⟩
          exact ⟨hx, fun hc => hs (List.mem_cons_of_mem _ hc)⟩
        · rintro ⟨hx, hs⟩
          refine ⟨hx, fun hc => ?_⟩
          rcases List.mem_cons.mp hc with h | h
          · exact hxa h
          · exact hs h

theorem mem_jsSetDedup [DecidableEq α] (l : List α) (x : α) :
    x ∈ jsSetDedup l ↔ x ∈ l := by
  rw [jsSetDedup, mem_jsSetGo]
  simp

theorem jsSetDedup_ne_nil [DecidableEq α] {l : List α} (h : l ≠ []) :
    jsSetDedup l ≠ [] := by
  cases l with
  | nil => exact absurd rfl h
  | cons a t =>
    intro hc
    have : a ∈ jsSetDedup (a :: t) := (mem_jsSetDedup _ _).mpr (List.mem_cons_self a t)
    rw [hc] at this
    exact List.not_mem_nil a this

theorem sortByPriority_perm (l : List RawGameData) : (sortByPriority l).Perm l :=
  List.perm_insertionSort _ l

theorem sortByPriority_sorted (l : List RawGameData) :
    List.Sorted byPriority (sortByPriority l) :=
  List.sorted_insertionSort _ l

theorem platform_priority_inj : ∀ s t : Source,
    PLATFORM_PRIORITY s = PLATFORM_PRIORITY t → s = t := by decide

/-- The head of the priority sort has minimal priority among the members. -/
theorem sortByPriority_head_min {l : List RawGameData} {h : RawGameData}
    {t : List RawGameData} (he : sortByPriority l = h :: t) :
    ∀ b ∈ l, PLATFORM_PRIORITY h.source ≤ PLATFORM_PRIORITY b.source := by
  intro b hb
  have hbs : b ∈ sortByPriority l := ((sortByPriority_perm l).mem_iff).mpr hb
  rw [he] at hbs
  rcases List.mem_cons.mp hbs with rfl | hbt
  · exact Nat.le_refl _
  · have hs := sortByPriority_sorted l
    rw [he] at hs
    exact (List.sorted_cons.mp hs).1 b hbt

/-- `mergeGameGroup` on a non-empty group: the record and its governing
expressions. -/
theorem mergeGameGroup_ok (ov : Option GameOverrides) (now : Int)
    (g : RawGameData) (gs : List RawGameData) :
    ∃ u, mergeGameGroup ov now (g :: gs) = .ok u ∧
      u.primarySource = ((sortByPriority (g :: gs)).headD g).source ∧
      u.canonicalId = (if jsTruthyNum ((sortByPriority (g :: gs)).headD g).steamAppId
        then "steam:" ++ toString ((((sortByPriority (g :: gs)).headD g).steamAppId).getD 0)
        else generateCanonicalId ((sortByPriority (g :: gs)).headD g).name) ∧
      u.ownedSources = (if (jsSetDedup ((sortByPriority (g :: gs)).map (·.source))).contains Source.xbox
        then (jsSetDedup ((sortByPriority (g :: gs)).map (·.source))).filter (fun s => s != Source.gamepass)
        else jsSetDedup ((sortByPriority (g :: gs)).map (·.source))) ∧
      u.playtimeHours = (if 0 < (g :: gs).foldl (fun sum game => sum + game.playtimeHours.getD 0) (0 : ℚ)
        then some ((g :: gs).foldl (fun sum game => sum + game.playtimeHours.getD 0) (0 : ℚ))
        else none) ∧
      u.name = (if 1 < (g :: gs).length then
          match shouldForceMerge ov g.name ((gs.headD g).name) with
          | some canonicalName =>
            if canonicalName ≠ "" ∧ canonicalName ≠ ((sortByPriority (g :: gs)).headD g).name
            then canonicalName else ((sortByPriority (g :: gs)).headD g).name
          | none => ((sortByPriority (g :: gs)).headD g).name
        else ((sortByPriority (g :: gs)).headD g).name) :=
  ⟨_, rfl, rfl, rfl, rfl, rfl, rfl⟩

/-! ### C10 -/

/-- C10: with no overrides loaded (module state `null`), `shouldForceMerge`
returns `null` for every pair, `applyPropertyOverrides` is the identity, and
name matching reduces to exact equality of normalized titles. -/
theorem c10_no_overrides_loaded (name1 name2 : String) (game : RawGameData) :
    shouldForceMerge none name1 name2 = none ∧
    applyPropertyOverrides none game = game ∧
    (areNamesMatching none name1 name2 = true ↔
      normalizeGameName name1 = normalizeGameName name2) := by
  refine ⟨rfl, rfl, ?_⟩
  simp [areNamesMatching, shouldForceMerge, jsTruthyStr]

/-! ### C7 -/

/-- C7 counterexample: a record without a numeric ID is appended to a group
whose key was derived from a numeric ID — the name-matching pass scans all
existing groups, including Steam-ID-keyed ones. -/
theorem c7_counterexample_noid_joins_id_group :
    jsTruthyNum exPortalEpic.steamAppId = false ∧
    deduplicateGames none [exPortalSteam, exPortalEpic] =
      [("steam:400", [exPortalSteam, exPortalEpic])] := by decide

/-- C7 (amended): a record without a numeric ID is matched against every
existing group in insertion order, numeric-ID-keyed groups included; it joins
the first group whose representative matches by name. -/
theorem c7_noid_matches_id_group (ov : Option GameOverrides) (r1 r2 : RawGameData)
    (h1 : jsTruthyNum r1.steamAppId = true)
    (h2 : jsTruthyNum r2.steamAppId = false)
    (h3 : areNamesMatching ov r2.name r1.name = true) :
    deduplicateGames ov [r1, r2] =
      [("steam:" ++ toString (r1.steamAppId.getD 0), [r1, r2])] := by
  simp [deduplicateGames, dedupStep, h1, h2, findNameMatchKey, h3, mapHasKey, mapPushAt,
    List.find?]

theorem c7_noid_matches_id_group_witness :
    jsTruthyNum exPortalSteam.steamAppId = true ∧
    jsTruthyNum exPortalEpic.steamAppId = false ∧
    areNamesMatching none exPortalEpic.name exPortalSteam.name = true ∧
    deduplicateGames none [exPortalSteam, exPortalEpic] =
      [("steam:" ++ toString (exPortalSteam.steamAppId.getD 0), [exPortalSteam, exPortalEpic])] :=
  ⟨by decide, by decide, by decide,
    c7_noid_matches_id_group none exPortalSteam exPortalEpic (by decide) (by decide) (by decide)⟩

/-! ### Similarity evaluations used by closed theorems (the rational
arithmetic is settled by `norm_num`; the string computations by `decide`) -/

theorem sim_drmario : calculateNameSimilarity exDrMarioSteam.name exDrMarioEpic.name = 8 / 9 := by
  simp only [calculateNameSimilarity]
  rw [if_neg (by decide), if_neg (by decide)]
  rw [show levenshteinDistance (normalizeGameName exDrMarioSteam.name)
      (normalizeGameName exDrMarioEpic.name) = 1 from by decide]
  rw [show max (normalizeGameName exDrMarioSteam.name).data.length
      (normalizeGameName exDrMarioEpic.name).data.length = 9 from by decide]
  norm_num

theorem sim_portal23 : calculateNameSimilarity exPortalTwoSteam.name exPortalThreeEpic.name = 7 / 8 := by
  simp only [calculateNameSimilarity]
  rw [if_neg (by decide), if_neg (by decide)]
  rw [show levenshteinDistance (normalizeGameName exPortalTwoSteam.name)
      (normalizeGameName exPortalThreeEpic.name) = 1 from by decide]
  rw [show max (normalizeGameName exPortalTwoSteam.name).data.length
      (normalizeGameName exPortalThreeEpic.name).data.length = 8 from by decide]
  norm_num

theorem sim_voidheart_epic : calculateNameSimilarity exVoidheartSteam.name exHollowEpic.name = 19 / 20 := by
  simp only [calculateNameSimilarity]
  rw [if_neg (by decide), if_pos (by decide)]

theorem sim_voidheart_gog : calculateNameSimilarity exVoidheartSteam.name exHollowGog.name = 19 / 20 := by
  simp only [calculateNameSimilarity]
  rw [if_neg (by decide), if_pos (by decide)]

theorem sim_epic_gog : calculateNameSimilarity exHollowEpic.name exHollowGog.name = 1 := by
  simp only [calculateNameSimilarity]
  rw [if_pos (by decide)]

/-! ### C2 -/

/-- C2 counterexample: two numeric-ID-free records, not force-merged, with
unequal normalized titles and similarity 8/9 ∈ [0.85, 1), do NOT end in
separate groups: their title slugs collide, `Map.set` replaces the first
record's group, and only one group (holding only the second record) remains. -/
theorem c2_counterexample_slug_collision :
    jsTruthyNum exDrMarioSteam.steamAppId = false ∧
    jsTruthyNum exDrMarioEpic.steamAppId = false ∧
    shouldForceMerge none exDrMarioSteam.name exDrMarioEpic.name = none ∧
    normalizeGameName exDrMarioSteam.name ≠ normalizeGameName exDrMarioEpic.name ∧
    85 / 100 ≤ calculateNameSimilarity exDrMarioSteam.name exDrMarioEpic.name ∧
    calculateNameSimilarity exDrMarioSteam.name exDrMarioEpic.name < 1 ∧
    deduplicateGames none [exDrMarioSteam, exDrMarioEpic] =
      [("name:dr-mario", [exDrMarioEpic])] := by
  refine ⟨by decide, by decide, by decide, by decide, ?_, ?_, by decide⟩
  · rw [sim_drmario]; norm_num
  · rw [sim_drmario]; norm_num

/-- C2 (amended): two numeric-ID-free records that are not covered by any
forced-merge rule and have unequal normalized titles are never placed in the
same group, and end in separate singleton groups provided their title slugs
differ (on a slug collision the later record's fresh group replaces the
earlier one's), even when their similarity lies in [0.85, 1). -/
theorem c2_no_fuzzy_auto_merge (ov : Option GameOverrides) (r1 r2 : RawGameData)
    (h1 : jsTruthyNum r1.steamAppId = false)
    (h2 : jsTruthyNum r2.steamAppId = false)
    (h3 : shouldForceMerge ov r1.name r2.name = none)
    (h4 : shouldForceMerge ov r2.name r1.name = none)
    (h5 : normalizeGameName r1.name ≠ normalizeGameName r2.name)
    (h6 : generateCanonicalId r1.name ≠ generateCanonicalId r2.name)
    (h7 : 85 / 100 ≤ calculateNameSimilarity r1.name r2.name)
    (h8 : calculateNameSimilarity r1.name r2.name < 1) :
    deduplicateGames ov [r1, r2] =
      [("name:" ++ generateCanonicalId r1.name, [r1]),
       ("name:" ++ generateCanonicalId r2.name, [r2])] := by
  have hm : areNamesMatching ov r2.name r1.name = false := by
    rw [areNamesMatching, h4]
    simp [jsTruthyStr, Ne.symm h5]
  have hkey : (("name:" ++ generateCanonicalId r1.name : String) ==
      ("name:" ++ generateCanonicalId r2.name : String)) = false := by
    rw [beq_eq_false_iff_ne]
    intro hc
    exact h6 (string_append_inj hc)
  simp [deduplicateGames, dedupStep, h1, h2, findNameMatchKey, hm, mapHasKey, mapSet,
    List.find?, hkey]

theorem c2_no_fuzzy_auto_merge_witness :
    jsTruthyNum exPortalTwoSteam.steamAppId = false ∧
    jsTruthyNum exPortalThreeEpic.steamAppId = false ∧
    shouldForceMerge none exPortalTwoSteam.name exPortalThreeEpic.name = none ∧
    shouldForceMerge none exPortalThreeEpic.name exPortalTwoSteam.name = none ∧
    normalizeGameName exPortalTwoSteam.name ≠ normalizeGameName exPortalThreeEpic.name ∧
    generateCanonicalId exPortalTwoSteam.name ≠ generateCanonicalId exPortalThreeEpic.name ∧
    85 / 100 ≤ calculateNameSimilarity exPortalTwoSteam.name exPortalThreeEpic.name ∧
    calculateNameSimilarity exPortalTwoSteam.name exPortalThreeEpic.name < 1 ∧
    deduplicateGames none [exPortalTwoSteam, exPortalThreeEpic] =
      [("name:" ++ generateCanonicalId exPortalTwoSteam.name, [exPortalTwoSteam]),
       ("name:" ++ generateCanonicalId exPortalThreeEpic.name, [exPortalThreeEpic])] :=
  ⟨by decide, by decide, by decide, by decide, by decide, by decide,
    by rw [sim_portal23]; norm_num, by rw [sim_portal23]; norm_num,
    c2_no_fuzzy_auto_merge none exPortalTwoSteam exPortalThreeEpic (by decide) (by decide)
      (by decide) (by decide) (by decide) (by decide)
      (by rw [sim_portal23]; norm_num) (by rw [sim_portal23]; norm_num)⟩

/-! ### C1 -/

/-- C1: playtime is NOT conserved by `processRawGames`.  The two records have
unequal normalized titles (so they are not grouped) but identical slugs, and
the `gameGroups.set` call for the second record replaces the first record's
group; the first record's 1 hour of playtime vanishes: input total 3, output
total 2. -/
theorem c1_playtime_lost_on_slug_collision :
    rawPlaytimeSum [exDrMarioSteam, exDrMarioEpic] = 3 ∧
    (∃ u, processRawGames none 0 [exDrMarioSteam, exDrMarioEpic] = [u] ∧
      u.name = "dr mario" ∧ u.playtimeHours = some 2) ∧
    unifiedPlaytimeSum (processRawGames none 0 [exDrMarioSteam, exDrMarioEpic]) = 2 := by
  obtain ⟨u, he, _, _, _, hpt, hnm⟩ := mergeGameGroup_ok none 0 exDrMarioEpic []
  have hd : deduplicateGames none [exDrMarioSteam, exDrMarioEpic] =
      [("name:dr-mario", [exDrMarioEpic])] := by decide
  have hp : processRawGames none 0 [exDrMarioSteam, exDrMarioEpic] = [u] := by
    rw [processRawGames, hd]
    simp [he]
  have hupt : u.playtimeHours = some 2 := by
    rw [hpt]
    norm_num [exDrMarioEpic]
  have hname : u.name = "dr mario" := by
    rw [hnm]
    rw [if_neg (by decide)]
    decide
  refine ⟨?_, ⟨u, hp, hname, hupt⟩, ?_⟩
  · simp [rawPlaytimeSum, exDrMarioSteam, exDrMarioEpic]
    norm_num
  · rw [hp]
    simp [unifiedPlaytimeSum, hupt]

/-! ### C8 -/

/-- C8: a record's (name, source) pair can appear in two distinct suggestions:
the `processed` set of `generateMergeSuggestions` is consulted but never added
to, so the first record pairs with both later records here. -/
theorem c8_record_in_two_suggestions :
    generateMergeSuggestions [exVoidheartSteam, exHollowEpic, exHollowGog] =
      [exSuggestionEpic, exSuggestionGog] ∧
    exSuggestionEpic ≠ exSuggestionGog ∧
    exSuggestionEpic.games.head? = some exVoidheartSteam.name ∧
    exSuggestionGog.games.head? = some exVoidheartSteam.name ∧
    exSuggestionEpic.sources.head? = some exVoidheartSteam.source ∧
    exSuggestionGog.sources.head? = some exVoidheartSteam.source := by
  refine ⟨?_, by decide, by decide, by decide, by decide, by decide⟩
  rw [generateMergeSuggestions]
  rw [show suggOuter [] [exVoidheartSteam, exHollowEpic, exHollowGog] =
      [exSuggestionEpic, exSuggestionGog] from ?_]
  · rw [List.insertionSort, List.insertionSort, List.insertionSort,
      List.orderedInsert, List.orderedInsert]
    rw [if_pos (by rw [bySimilarityDesc]; norm_num [exSuggestionEpic, exSuggestionGog])]
  · simp only [suggOuter, suggInner, suggKey, sim_voidheart_epic, sim_voidheart_gog,
      sim_epic_gog, List.contains, List.elem]
    norm_num [exVoidheartSteam, exHollowEpic, exHollowGog, exSuggestionEpic,
      exSuggestionGog, jsRound]
    simp +decide

/-! ### C6 -/

/-- C6 counterexample: two records of the same source with different Steam
AppIDs: under a permutation of the group the priority sort (stable) picks a
different primary record, and `canonicalId` changes. -/
theorem c6_counterexample_canonicalId_depends_on_order :
    ([exSteamOne, exSteamTwo] : List RawGameData).Perm [exSteamTwo, exSteamOne] ∧
    (mergeGameGroup none 0 [exSteamOne, exSteamTwo]).map (·.canonicalId) ≠
      (mergeGameGroup none 0 [exSteamTwo, exSteamOne]).map (·.canonicalId) := by
  refine ⟨List.Perm.swap _ _ _, ?_⟩
  obtain ⟨u1, he1, _, hc1, _, _, _⟩ := mergeGameGroup_ok none 0 exSteamOne [exSteamTwo]
  obtain ⟨u2, he2, _, hc2, _, _, _⟩ := mergeGameGroup_ok none 0 exSteamTwo [exSteamOne]
  have h1 : u1.canonicalId = "steam:1" := by rw [hc1]; decide
  have h2 : u2.canonicalId = "steam:2" := by rw [hc2]; decide
  rw [he1, he2]
  simp only [Except.map, h1, h2]
  intro hc
  exact absurd (Except.ok.inj hc) (by decide)

/-- C6 (amended): `primarySource` is invariant under every permutation of a
non-empty group; `canonicalId` is additionally invariant provided any two
contributors sharing a source agree on `steamAppId` and on `name` (in general
it may depend on the order, as the counterexample shows). -/
theorem c6_merge_order_invariance (ov : Option GameOverrides) (now : Int)
    (l1 l2 : List RawGameData) (hperm : l1.Perm l2) (hne : l1 ≠ []) :
    ∃ u1 u2, mergeGameGroup ov now l1 = .ok u1 ∧ mergeGameGroup ov now l2 = .ok u2 ∧
      u1.primarySource = u2.primarySource ∧
      ((∀ a ∈ l1, ∀ b ∈ l1, a.source = b.source →
          a.steamAppId = b.steamAppId ∧ a.name = b.name) →
        u1.canonicalId = u2.canonicalId) := by
  match l1, hne with
  | g1 :: t1, _ =>
    have hne2 : l2 ≠ [] := by
      intro hc
      rw [hc] at hperm
      exact (List.cons_ne_nil g1 t1) hperm.eq_nil
    match l2, hne2 with
    | g2 :: t2, _ =>
      obtain ⟨u1, he1, hp1, hc1, _, _, _⟩ := mergeGameGroup_ok ov now g1 t1
      obtain ⟨u2, he2, hp2, hc2, _, _, _⟩ := mergeGameGroup_ok ov now g2 t2
      obtain ⟨h1, t1', hs1⟩ : ∃ h t, sortByPriority (g1 :: t1) = h :: t := by
        cases hq : sortByPriority (g1 :: t1) with
        | nil =>
          have := (sortByPriority_perm (g1 :: t1)).symm.length_eq
          rw [hq] at this
          simp at this
        | cons h t => exact ⟨h, t, rfl⟩
      obtain ⟨h2, t2', hs2⟩ : ∃ h t, sortByPriority (g2 :: t2) = h :: t := by
        cases hq : sortByPriority (g2 :: t2) with
        | nil =>
          have := (sortByPriority_perm (g2 :: t2)).symm.length_eq
          rw [hq] at this
          simp at this
        | cons h t => exact ⟨h, t, rfl⟩
      have hm1 : h1 ∈ (g1 :: t1 : List RawGameData) := by
        have : h1 ∈ sortByPriority (g1 :: t1) := by rw [hs1]; exact List.mem_cons_self _ _
        exact (sortByPriority_perm _).mem_iff.mp this
      have hm2 : h2 ∈ (g1 :: t1 : List RawGameData) := by
        have : h2 ∈ sortByPriority (g2 :: t2) := by rw [hs2]; exact List.mem_cons_self _ _
        exact hperm.symm.mem_iff.mp ((sortByPriority_perm _).mem_iff.mp this)
      have hle1 : PLATFORM_PRIORITY h1.source ≤ PLATFORM_PRIORITY h2.source :=
        sortByPriority_head_min hs1 h2 hm2
      have hle2 : PLATFORM_PRIORITY h2.source ≤ PLATFORM_PRIORITY h1.source := by
        refine sortByPriority_head_min hs2 h1 ?_
        exact hperm.mem_iff.mp hm1
      have hsrc : h1.source = h2.source :=
        platform_priority_inj _ _ (Nat.le_antisymm hle1 hle2)
      refine ⟨u1, u2, he1, he2, ?_, ?_⟩
      · rw [hp1, hp2, hs1, hs2]
        simpa using hsrc
      · intro hsame
        have hagree := hsame h1 hm1 h2 hm2 hsrc
        rw [hc1, hc2, hs1, hs2]
        simp only [List.headD_cons]
        rw [hagree.1, hagree.2]

theorem c6_merge_order_invariance_witness :
    ([exXboxHalo, exGamepassHalo] : List RawGameData).Perm [exGamepassHalo, exXboxHalo] ∧
    ([exXboxHalo, exGamepassHalo] : List RawGameData) ≠ [] ∧
    (∃ u1 u2, mergeGameGroup none 0 [exXboxHalo, exGamepassHalo] = .ok u1 ∧
      mergeGameGroup none 0 [exGamepassHalo, exXboxHalo] = .ok u2 ∧
      u1.primarySource = u2.primarySource ∧
      ((∀ a ∈ ([exXboxHalo, exGamepassHalo] : List RawGameData),
          ∀ b ∈ ([exXboxHalo, exGamepassHalo] : List RawGameData), a.source = b.source →
          a.steamAppId = b.steamAppId ∧ a.name = b.name) →
        u1.canonicalId = u2.canonicalId)) :=
  ⟨by decide, by decide,
    c6_merge_order_invariance none 0 [exXboxHalo, exGamepassHalo]
      [exGamepassHalo, exXboxHalo] (by decide) (by decide)⟩

/-! ### C3 -/

/-- C3: for a non-empty group, `ownedSources` is the set of distinct source
tags among contributors, minus `gamepass` whenever `xbox` is present, and is
never empty. -/
theorem c3_ownedSources_spec (ov : Option GameOverrides) (now : Int)
    (games : List RawGameData) (h : games ≠ []) :
    ∃ u, mergeGameGroup ov now games = .ok u ∧
      (∀ s, s ∈ u.ownedSources ↔ (s ∈ games.map (·.source) ∧
        ¬(s = Source.gamepass ∧ Source.xbox ∈ games.map (·.source)))) ∧
      u.ownedSources ≠ [] := by
  match games, h with
  | g :: gs, _ =>
    obtain ⟨u, he, _, _, hOwn, _, _⟩ := mergeGameGroup_ok ov now g gs
    have hmemAll : ∀ s : Source,
        s ∈ jsSetDedup ((sortByPriority (g :: gs)).map (·.source)) ↔
          s ∈ (g :: gs).map (·.source) := by
      intro s
      rw [mem_jsSetDedup]
      exact ((sortByPriority_perm (g :: gs)).map (·.source)).mem_iff
    have hcont : (jsSetDedup ((sortByPriority (g :: gs)).map (·.source))).contains Source.xbox =
        true ↔ Source.xbox ∈ (g :: gs).map (·.source) := by
      constructor
      · intro hc
        exact (hmemAll _).mp (List.mem_of_elem_eq_true hc)
      · intro hm
        exact List.elem_eq_true_of_mem ((hmemAll _).mpr hm)
    refine ⟨u, he, ?_, ?_⟩
    · intro s
      rw [hOwn]
      by_cases hx : Source.xbox ∈ (g :: gs).map (·.source)
      · rw [if_pos (hcont.mpr hx)]
        rw [List.mem_filter]
        rw [hmemAll]
        constructor
        · rintro ⟨hs, hne⟩
          refine ⟨hs, ?_⟩
          rintro ⟨rfl, -⟩
          simp at hne
        · rintro ⟨hs, hng⟩
          refine ⟨hs, ?_⟩
          have : s ≠ Source.gamepass := fun hc => hng ⟨hc, hx⟩
          simpa using this
      · rw [if_neg (fun hc => hx (hcont.mp hc))]
        rw [hmemAll]
        constructor
        · intro hs
          exact ⟨hs, fun hc => hx hc.2⟩
        · rintro ⟨hs, -⟩
          exact hs
    · rw [hOwn]
      by_cases hx : Source.xbox ∈ (g :: gs).map (·.source)
      · rw [if_pos (hcont.mpr hx)]
        intro hc
        have hxm : Source.xbox ∈
            (jsSetDedup ((sortByPriority (g :: gs)).map (·.source))).filter
              (fun s => s != Source.gamepass) := by
          rw [List.mem_filter]
          exact ⟨(hmemAll _).mpr hx, by decide⟩
        rw [hc] at hxm
        exact List.not_mem_nil _ hxm
      · rw [if_neg (fun hc => hx (hcont.mp hc))]
        refine jsSetDedup_ne_nil ?_
        intro hc
        have : g.source ∈ (sortByPriority (g :: gs)).map (·.source) := by
          rw [List.mem_map]
          exact ⟨g, (sortByPriority_perm _).mem_iff.mpr (List.mem_cons_self _ _), rfl⟩
        rw [hc] at this
        exact List.not_mem_nil _ this

theorem c3_ownedSources_spec_witness :
    ([exXboxHalo, exGamepassHalo] : List RawGameData) ≠ [] ∧
    (∃ u, mergeGameGroup none 0 [exXboxHalo, exGamepassHalo] = .ok u ∧
      (∀ s, s ∈ u.ownedSources ↔ (s ∈ ([exXboxHalo, exGamepassHalo] : List RawGameData).map (·.source) ∧
        ¬(s = Source.gamepass ∧
          Source.xbox ∈ ([exXboxHalo, exGamepassHalo] : List RawGameData).map (·.source)))) ∧
      u.ownedSources ≠ []) :=
  ⟨by decide, c3_ownedSources_spec none 0 [exXboxHalo, exGamepassHalo] (by decide)⟩

/-! ### C9 -/

theorem gpInterest_returned_mono (cat : List String) (cur : List UnavailableGame)
    (nowIso : String) (l : List String) :
    ∀ (acc : List UnavailableGame × List String) (x : String),
      x ∈ acc.2 → x ∈ (l.foldl (gpInterestStep cat cur nowIso) acc).2 := by
  induction l with
  | nil => intro acc x hx; exact hx
  | cons a r ih =>
    intro acc x hx
    rw [List.foldl_cons]
    apply ih
    unfold gpInterestStep
    split
    · exact hx
    · split
      · exact List.mem_append_left _ hx
      · exact hx

theorem gpInterest_returned_mem (cat : List String) (cur : List UnavailableGame)
    (nowIso : String) (t : String) (ht1 : cat.contains t = true)
    (ht2 : (cur.find? (fun u => normalizeGameName u.name == t)).isSome = true)
    (l : List String) :
    ∀ acc, t ∈ l → t ∈ (l.foldl (gpInterestStep cat cur nowIso) acc).2 := by
  induction l with
  | nil => intro acc h; exact absurd h (List.not_mem_nil t)
  | cons a r ih =>
    intro acc hmem
    rcases List.mem_cons.mp hmem with rfl | hmem
    · rw [List.foldl_cons]
      apply gpInterest_returned_mono
      unfold gpInterestStep
      rw [if_neg (by simpa using List.mem_of_elem_eq_true ht1)]
      rw [if_pos ht2]
      simp
    · rw [List.foldl_cons]
      exact ih _ hmem

theorem gpInterest_unavail_names (cat : List String) (cur : List UnavailableGame)
    (nowIso : String) (t : String) (htcat : cat.contains t = true) (l : List String) :
    ∀ acc, (∀ s ∈ l, normalizeGameName s = s) →
      (∀ u ∈ acc.1, normalizeGameName u.name ≠ t) →
      ∀ u ∈ (l.foldl (gpInterestStep cat cur nowIso) acc).1, normalizeGameName u.name ≠ t := by
  induction l with
  | nil => intro acc _ hacc; exact hacc
  | cons a r ih =>
    intro acc hfix hacc
    rw [List.foldl_cons]
    refine ih _ (fun s hs => hfix s (List.mem_cons_of_mem _ hs)) ?_
    unfold gpInterestStep
    split
    · next hcond =>
      intro u hu
      rcases List.mem_append.mp hu with hu | hu
      · exact hacc u hu
      · rw [List.mem_singleton] at hu
        subst hu
        show normalizeGameName a ≠ t
        rw [hfix a (List.mem_cons_self _ _)]
        intro hc
        subst hc
        exact absurd htcat (by simpa using hcond)
    · split
      · exact fun u hu => hacc u hu
      · exact fun u hu => hacc u hu

theorem gpXbox_names (owned cat : List String) (nowIso : String) (t : String)
    (htcat : cat.contains t = true) (pl : List RawGameData) :
    ∀ acc, (∀ u ∈ acc, normalizeGameName u.name ≠ t) →
      ∀ u ∈ pl.foldl (gpXboxStep owned cat nowIso) acc, normalizeGameName u.name ≠ t := by
  induction pl with
  | nil => intro acc hacc; exact hacc
  | cons g r ih =>
    intro acc hacc
    rw [List.foldl_cons]
    refine ih _ ?_
    unfold gpXboxStep
    split
    · exact hacc
    · dsimp only
      split
      · next hcond =>
        intro u hu
        rcases List.mem_append.mp hu with hu | hu
        · exact hacc u hu
        · rw [List.mem_singleton] at hu
          subst hu
          show normalizeGameName g.name ≠ t
          intro hc
          rw [hc] at hcond
          have h2 := ((Bool.and_eq_true _ _).mp hcond).2
          rw [Bool.not_eq_true'] at h2
          exact absurd (List.mem_of_elem_eq_true htcat) (by simpa using h2)
      · exact hacc

/-- C9 counterexample: a title in the prior unavailable report that is present
and available in the current catalog but NOT in the interest set is dropped
from the new report yet does not appear in `returned`. -/
theorem c9_counterexample_returned_needs_interest :
    normalizeGameName exOldGameEntry.name = "old game" ∧
    "old game" ∈ catalogNamesOf [exOldGameCatalog] ∧
    processGamePassAvailability [] [exOldGameCatalog] [] [] [exOldGameEntry] "t" = ([], []) := by
  refine ⟨by decide, by decide, by decide⟩

/-- C9 (amended): a title of the prior unavailable report that is present and
available in the current catalog is omitted from the new unavailable report;
it is listed in `returned` when it is additionally in the interest set (the
returned check lives inside the loop over interests). -/
theorem c9_returned_titles (played : List RawGameData) (catalog : List GamePassGame)
    (owned interests : List String) (prior : List UnavailableGame) (nowIso t : String)
    (hfix : ∀ s ∈ interests, normalizeGameName s = s)
    (hint : t ∈ interests)
    (hcat : t ∈ catalogNamesOf catalog)
    (hprior : ∃ u ∈ prior, normalizeGameName u.name = t) :
    t ∈ (processGamePassAvailability played catalog owned interests prior nowIso).2 ∧
    ∀ u ∈ (processGamePassAvailability played catalog owned interests prior nowIso).1,
      normalizeGameName u.name ≠ t := by
  have htc : (catalogNamesOf catalog).contains t = true := List.elem_eq_true_of_mem hcat
  have hfs : (prior.find? (fun u => normalizeGameName u.name == t)).isSome = true := by
    obtain ⟨u, hu, he⟩ := hprior
    rw [List.find?_isSome]
    exact ⟨u, hu, by simp [he]⟩
  constructor
  · rw [processGamePassAvailability]
    exact gpInterest_returned_mem _ _ _ _ htc hfs interests _ hint
  · rw [processGamePassAvailability]
    refine gpInterest_unavail_names _ _ _ _ htc interests _ hfix ?_
    refine gpXbox_names _ _ _ _ htc played [] ?_
    intro u hu
    exact absurd hu (List.not_mem_nil u)

theorem c9_returned_titles_witness :
    (∀ s ∈ ["old game"], normalizeGameName s = s) ∧
    "old game" ∈ ["old game"] ∧
    "old game" ∈ catalogNamesOf [exOldGameCatalog] ∧
    (∃ u ∈ [exOldGameEntry], normalizeGameName u.name = "old game") ∧
    ("old game" ∈ (processGamePassAvailability [] [exOldGameCatalog] [] ["old game"]
        [exOldGameEntry] "t").2 ∧
      ∀ u ∈ (processGamePassAvailability [] [exOldGameCatalog] [] ["old game"]
        [exOldGameEntry] "t").1, normalizeGameName u.name ≠ "old game") :=
  ⟨by decide, by decide, by decide, ⟨exOldGameEntry, by decide, by decide⟩,
    c9_returned_titles [] [exOldGameCatalog] [] ["old game"] [exOldGameEntry] "t" "old game"
      (by decide) (by decide) (by decide) ⟨exOldGameEntry, by decide, by decide⟩⟩

/-! ### Scanner basics -/

theorem isJsWs_not_word {c : Char} (h : isJsWs c = true) : isWordChar c = false := by
  simp only [isJsWs, Bool.or_eq_true, beq_iff_eq] at h
  rcases h with ((((h | h) | h) | h) | h) | h <;> subst h <;> decide

theorem scanGo_cons_true (pats : List (List Char)) (f : Nat) (c : Char) (r : List Char) :
    scanGo pats (f + 1) true (c :: r) =
      (match findPat pats (c :: r) with
        | some p => scanGo pats f (!isWordChar (p.getLastD ' ')) ((c :: r).drop p.length)
        | none => c :: scanGo pats f (!isWordChar c) r) := by
  rw [scanGo]
  simp

theorem scanGo_cons_false (pats : List (List Char)) (f : Nat) (c : Char) (r : List Char) :
    scanGo pats (f + 1) false (c :: r) = c :: scanGo pats f (!isWordChar c) r := by
  rw [scanGo]
  simp

theorem patOk_eq_true {l p : List Char} (h : patOk l p = true) :
    l.take p.length = p ∧ nonWordHead (l.drop p.length) = true := by
  rw [patOk, Bool.and_eq_true] at h
  exact ⟨by simpa using h.1, h.2⟩

theorem patOk_of {l p : List Char} (h1 : l.take p.length = p)
    (h2 : nonWordHead (l.drop p.length) = true) : patOk l p = true := by
  rw [patOk, Bool.and_eq_true]
  exact ⟨by simpa using h1, h2⟩

theorem findPat_none_iff {pats : List (List Char)} {l : List Char} :
    findPat pats l = none ↔ ∀ p ∈ pats, patOk l p = false := by
  rw [findPat, List.find?_eq_none]
  constructor
  · intro h p hp
    exact Bool.not_eq_true _ ▸ (by simpa using h p hp)
  · intro h p hp
    simp [h p hp]

theorem findPat_some {pats : List (List Char)} {l p : List Char}
    (h : findPat pats l = some p) : p ∈ pats ∧ patOk l p = true :=
  ⟨List.mem_of_find?_eq_some h, List.find?_some h⟩

theorem findPat_nonword_head {pats : List (List Char)}
    (hpats : ∀ p ∈ pats, p ≠ [] ∧ isWordChar (p.headD ' ') = true)
    {c : Char} (hc : isWordChar c = false) (r : List Char) :
    findPat pats (c :: r) = none := by
  rw [findPat_none_iff]
  intro p hp
  obtain ⟨hne, hh⟩ := hpats p hp
  cases p with
  | nil => exact absurd rfl hne
  | cons ph pt =>
    rw [patOk]
    rw [Bool.and_eq_false_iff]
    left
    rw [beq_eq_false_iff_ne]
    intro hcontra
    rw [List.length_cons, List.take_succ_cons] at hcontra
    have : c = ph := (List.cons.injEq _ _ _ _ ▸ hcontra).1
    rw [this] at hc
    simp at hh
    rw [hh] at hc
    exact Bool.true_eq_false ▸ hc

theorem scanGo_fuel {pats : List (List Char)} (hne : ∀ p ∈ pats, p ≠ []) :
    ∀ (f1 f2 : Nat) (atB : Bool) (l : List Char),
      l.length ≤ f1 → l.length ≤ f2 →
      scanGo pats f1 atB l = scanGo pats f2 atB l := by
  intro f1
  induction f1 with
  | zero =>
    intro f2 atB l h1 h2
    have : l = [] := List.eq_nil_of_length_eq_zero (Nat.le_zero.mp h1)
    subst this
    cases f2 <;> rfl
  | succ f ih =>
    intro f2 atB l h1 h2
    cases l with
    | nil => cases f2 <;> rfl
    | cons c r =>
      cases f2 with
      | zero => simp at h2
      | succ g =>
        by_cases hb : atB
        · subst hb
          rw [scanGo_cons_true, scanGo_cons_true]
          cases hfp : findPat pats (c :: r) with
          | some p =>
            obtain ⟨hp, hok⟩ := findPat_some hfp
            have hplen : 0 < p.length := by
              cases p with
              | nil => exact absurd rfl (hne _ hp)
              | cons _ _ => simp
            have hlen : ((c :: r).drop p.length).length ≤ f := by
              rw [List.length_drop]
              simp only [List.length_cons] at h1 ⊢
              omega
            have hlen2 : ((c :: r).drop p.length).length ≤ g := by
              rw [List.length_drop]
              simp only [List.length_cons] at h2 ⊢
              omega
            exact ih g _ _ hlen hlen2
          | none =>
            have hlen : r.length ≤ f := by simpa using h1
            have hlen2 : r.length ≤ g := by simpa using h2
            rw [ih g _ _ hlen hlen2]
        · have hb2 : atB = false := Bool.not_eq_true _ ▸ (by simpa using hb)
          subst hb2
          rw [scanGo_cons_false, scanGo_cons_false]
          have hlen : r.length ≤ f := by simpa using h1
          have hlen2 : r.length ≤ g := by simpa using h2
          rw [ih g _ _ hlen hlen2]

theorem scanGo_cons_nonword {pats : List (List Char)}
    (hpats : ∀ p ∈ pats, p ≠ [] ∧ isWordChar (p.headD ' ') = true)
    {c : Char} (hc : isWordChar c = false) (f : Nat) (atB : Bool) (r : List Char) :
    scanGo pats (f + 1) atB (c :: r) = c :: scanGo pats f true r := by
  cases atB with
  | true =>
    rw [scanGo_cons_true, findPat_nonword_head hpats hc]
    rw [hc]
    rfl
  | false =>
    rw [scanGo_cons_false, hc]
    rfl

theorem nonWordHead_scanGo {pats : List (List Char)}
    (hpats : ∀ p ∈ pats, p ≠ [] ∧ isWordChar (p.headD ' ') = true)
    {l : List Char} (h : nonWordHead l = true) (f : Nat) (atB : Bool) :
    nonWordHead (scanGo pats f atB l) = true := by
  cases l with
  | nil => cases f <;> simp [scanGo, nonWordHead]
  | cons c r =>
    have hc : isWordChar c = false := by simpa [nonWordHead] using h
    cases f with
    | zero => simpa [scanGo, nonWordHead] using hc
    | succ g =>
      rw [scanGo_cons_nonword hpats hc]
      simpa [nonWordHead] using hc

theorem hasMatch_cons (pats : List (List Char)) (atB : Bool) (c : Char) (r : List Char) :
    hasMatch pats atB (c :: r) =
      ((atB && (findPat pats (c :: r)).isSome) || hasMatch pats (!isWordChar c) r) := rfl

theorem hasMatch_false_of_true {pats : List (List Char)} {l : List Char}
    (h : hasMatch pats true l = false) : hasMatch pats false l = false := by
  cases l with
  | nil => rfl
  | cons c r =>
    rw [hasMatch_cons] at h ⊢
    rw [Bool.or_eq_false_iff] at h
    simp [h.2]

theorem scanGo_id {pats : List (List Char)} :
    ∀ (f : Nat) (atB : Bool) (l : List Char), l.length ≤ f →
      hasMatch pats atB l = false → scanGo pats f atB l = l := by
  intro f
  induction f with
  | zero =>
    intro atB l h1 _
    have : l = [] := List.eq_nil_of_length_eq_zero (Nat.le_zero.mp h1)
    subst this
    rfl
  | succ f ih =>
    intro atB l h1 hm
    cases l with
    | nil => rfl
    | cons c r =>
      rw [hasMatch_cons, Bool.or_eq_false_iff] at hm
      cases atB with
      | true =>
        rw [scanGo_cons_true]
        have hfalse : (findPat pats (c :: r)).isSome = false := by simpa using hm.1
        cases hfp : findPat pats (c :: r) with
        | some p => rw [hfp] at hfalse; simp at hfalse
        | none =>
          rw [ih _ r (by simpa using h1) hm.2]
      | false =>
        rw [scanGo_cons_false]
        rw [ih _ r (by simpa using h1) hm.2]

/-! ### Structural helpers for the seam analysis -/

theorem nonWordHead_append {xs ys : List Char} (h : xs ≠ []) :
    nonWordHead (xs ++ ys) = nonWordHead xs := by
  cases xs with
  | nil => exact absurd rfl h
  | cons c r => rfl

theorem nonWordHead_take {l : List Char} {k : Nat} (h : 0 < k) :
    nonWordHead (l.take k) = nonWordHead l := by
  cases l with
  | nil => simp
  | cons c r =>
    cases k with
    | zero => omega
    | succ j => rfl

theorem head?_take {l : List α} {k : Nat} (h : 0 < k) : (l.take k).head? = l.head? := by
  cases l with
  | nil => simp
  | cons c r =>
    cases k with
    | zero => omega
    | succ j => simp

theorem noTwoNonWord_tail {c : Char} {r : List Char}
    (h : noTwoNonWord (c :: r) = true) : noTwoNonWord r = true := by
  cases r with
  | nil => rfl
  | cons d t =>
    rw [noTwoNonWord, Bool.and_eq_true] at h
    exact h.2

theorem noTwoNonWord_append {x y : Char} {v : List Char} :
    ∀ u : List Char, noTwoNonWord (u ++ x :: y :: v) = true →
      isWordChar x = true ∨ isWordChar y = true := by
  intro u
  induction u with
  | nil =>
    intro h
    rw [List.nil_append, noTwoNonWord, Bool.and_eq_true] at h
    exact Bool.or_eq_true _ _ |>.mp h.1
  | cons a u ih =>
    intro h
    exact ih (noTwoNonWord_tail (by simpa using h))

theorem cons_prefix_head {d : Char} {p2 out2 : List Char}
    (h : d :: p2 <+: out2) : ∃ t, out2 = d :: t := by
  obtain ⟨t, ht⟩ := h
  exact ⟨p2 ++ t, by simpa using ht.symm⟩

theorem take_getLast? {r : List Char} {m : Nat} (h0 : 0 < m) (hm : m ≤ r.length) :
    (r.take m).getLast? = r.get? (m - 1) := by
  rw [List.getLast?_take, if_neg (by omega)]
  have h1 : m - 1 < r.length := by omega
  rw [List.get?_eq_getElem?, List.getElem?_eq_getElem h1]
  simp

/-! ### First-deletion decomposition of a scan -/

/-- Either the scan removes nothing, or there is a first removed match: at
position `m`, a pattern `p` matches with its trailing boundary, the scan
output keeps the first `m` characters and continues after the match with the
boundary state `false` (patterns end in a word character), and the position
`m` sits at a word boundary (`atB` at the start, a non-word character at
`m - 1` otherwise). -/
theorem scanGo_decomp {pats : List (List Char)}
    (hne : ∀ p ∈ pats, p ≠ []) (hlast : ∀ p ∈ pats, isWordChar (p.getLastD ' ') = true) :
    ∀ (fuel : Nat) (atB : Bool) (l : List Char), l.length ≤ fuel →
      scanGo pats fuel atB l = l ∨
      ∃ (m : Nat) (p : List Char),
        p ∈ pats ∧
        m + p.length ≤ l.length ∧
        (l.drop m).take p.length = p ∧
        nonWordHead (l.drop (m + p.length)) = true ∧
        scanGo pats fuel atB l =
          l.take m ++ scanGo pats (l.drop (m + p.length)).length false (l.drop (m + p.length)) ∧
        (m = 0 → atB = true) ∧
        (0 < m → ∃ e, l.get? (m - 1) = some e ∧ isWordChar e = false) := by
  intro fuel
  induction fuel with
  | zero => intro atB l h; exact Or.inl rfl
  | succ f ih =>
    intro atB l hlen
    cases l with
    | nil => exact Or.inl rfl
    | cons c r =>
      have hcopy : ∀ atB : Bool,
          scanGo pats (f + 1) atB (c :: r) = c :: scanGo pats f (!isWordChar c) r →
          scanGo pats (f + 1) atB (c :: r) = c :: r ∨
          ∃ (m : Nat) (p : List Char),
            p ∈ pats ∧
            m + p.length ≤ (c :: r).length ∧
            ((c :: r).drop m).take p.length = p ∧
            nonWordHead ((c :: r).drop (m + p.length)) = true ∧
            scanGo pats (f + 1) atB (c :: r) =
              (c :: r).take m ++
                scanGo pats ((c :: r).drop (m + p.length)).length false
                  ((c :: r).drop (m + p.length)) ∧
            (m = 0 → atB = true) ∧
            (0 < m → ∃ e, (c :: r).get? (m - 1) = some e ∧ isWordChar e = false) := by
        intro atB hstep
        rcases ih (!isWordChar c) r (by simpa using hlen) with hid |
          ⟨m, p, hp, hmle, htk, hnw, heq, hm0, hm1⟩
        · rw [hstep, hid]; exact Or.inl rfl
        · have hd : (c :: r).drop (m + 1 + p.length) = r.drop (m + p.length) := by
            rw [show m + 1 + p.length = m + p.length + 1 from by omega]
            rfl
          refine Or.inr ⟨m + 1, p, hp, ?_, ?_, ?_, ?_, by omega, ?_⟩
          · simp only [List.length_cons]; omega
          · simpa using htk
          · rw [hd]; exact hnw
          · rw [hstep, heq, hd, List.take_succ_cons, List.cons_append]
          · intro _
            cases m with
            | zero =>
              exact ⟨c, rfl, by simpa using hm0 rfl⟩
            | succ j =>
              obtain ⟨e, he, hw⟩ := hm1 (Nat.succ_pos j)
              exact ⟨e, by simpa using he, hw⟩
      cases atB with
      | false => exact hcopy false (scanGo_cons_false pats f c r)
      | true =>
        cases hfp : findPat pats (c :: r) with
        | none =>
          refine hcopy true ?_
          rw [scanGo_cons_true, hfp]
        | some p =>
          obtain ⟨hpmem, hpok⟩ := findPat_some hfp
          obtain ⟨htk, hnw⟩ := patOk_eq_true hpok
          have hstep : scanGo pats (f + 1) true (c :: r) =
              scanGo pats f (!isWordChar (p.getLastD ' ')) ((c :: r).drop p.length) := by
            rw [scanGo_cons_true, hfp]
          have hplen : 0 < p.length := by
            cases p with
            | nil => exact absurd rfl (hne _ hpmem)
            | cons _ _ => simp
          have hple : p.length ≤ (c :: r).length := by
            have := congrArg List.length htk
            rw [List.length_take] at this
            omega
          have hdlen : ((c :: r).drop p.length).length ≤ f := by
            rw [List.length_drop]
            simp only [List.length_cons] at hlen ⊢
            omega
          refine Or.inr ⟨0, p, hpmem, by simpa using hple, by simpa using htk,
            by simpa using hnw, ?_, fun _ => rfl, by omega⟩
          rw [hstep, hlast p hpmem]
          rw [List.take_zero, List.nil_append]
          simp only [Nat.zero_add]
          exact scanGo_fuel hne f _ false _ hdlen (Nat.le_refl _)

/-! ### Seam transfer: a deletion in the tail cannot create a new head match -/

/-- If the scanner deleted a chunk at position `m` of `r` (leaving
`r.take m ++ out2` with `out2` starting at a non-word character), then a
pattern of a set satisfying `PatSpec` that did not match at the head of
`c :: r` still does not match at the head of the residue. -/
theorem findPat_transfer {A : List (List Char)} (hA : PatsSpec A)
    {c : Char} {r : List Char} {m : Nat} {out2 : List Char}
    (hm : m ≤ r.length)
    (hprev : ∀ e, (c :: r).get? m = some e → isWordChar e = false)
    (hout2 : nonWordHead out2 = true)
    (hin : findPat A (c :: r) = none) :
    findPat A (c :: (r.take m ++ out2)) = none := by
  rw [findPat_none_iff] at hin ⊢
  intro p hp
  cases hpok : patOk (c :: (r.take m ++ out2)) p with
  | false => rfl
  | true =>
    exfalso
    obtain ⟨hpne, hph, hpl, hpadj⟩ := hA p hp
    obtain ⟨htake, hbd⟩ := patOk_eq_true hpok
    have hsplit : c :: (r.take m ++ out2) = (c :: r.take m) ++ out2 := rfl
    have hprelen : (c :: r.take m).length = m + 1 := by
      simp [List.length_take, Nat.min_eq_left hm]
    have hpfx : p <+: (c :: r.take m) ++ out2 := by
      rw [← hsplit, ← htake]
      exact List.take_prefix _ _
    have hprefix2 : (c :: r.take m) <+: (c :: r) := by
      rw [List.cons_prefix_cons]
      exact ⟨rfl, List.take_prefix _ _⟩
    rcases Nat.lt_trichotomy p.length (m + 1) with hlt | heqn | hgt
    · -- the pattern fits before the seam: it already matched in the input
      have hppre : p <+: (c :: r.take m) :=
        List.prefix_of_prefix_length_le hpfx (List.prefix_append _ _) (by omega)
      have hpin : p <+: (c :: r) := hppre.trans hprefix2
      have hbdin : nonWordHead ((c :: r).drop p.length) = true := by
        have h1 : ((c :: r.take m) ++ out2).drop p.length =
            (c :: r.take m).drop p.length ++ out2 :=
          List.drop_append_of_le_length (by omega)
        rw [hsplit, h1] at hbd
        have hne2 : (c :: r.take m).drop p.length ≠ [] := by
          intro hc2
          have := congrArg List.length hc2
          rw [List.length_drop, hprelen] at this
          simp at this
          omega
        rw [nonWordHead_append hne2] at hbd
        have h2 : (c :: r.take m).drop p.length = ((c :: r).drop p.length).take (m + 1 - p.length) := by
          have : (c :: r.take m) = (c :: r).take (m + 1) := by
            rw [List.take_succ_cons]
          rw [this, List.drop_take]
        rw [h2, nonWordHead_take (by omega)] at hbd
        exact hbd
      have : patOk (c :: r) p = true :=
        patOk_of (List.prefix_iff_eq_take.mp hpin).symm hbdin
      rw [hin p hp] at this
      exact Bool.false_ne_true this
    · -- the pattern ends exactly at the seam: its last character is non-word
      have hppre : p <+: (c :: r.take m) :=
        List.prefix_of_prefix_length_le hpfx (List.prefix_append _ _) (by omega)
      have hpeq : p = c :: r.take m := hppre.eq_of_length (by omega)
      cases hm0 : m with
      | zero =>
        subst hm0
        have : p = [c] := by simpa using hpeq
        rw [this] at hpl
        have hcw : isWordChar c = false := hprev c rfl
        rw [show ([c] : List Char).getLastD ' ' = c from rfl] at hpl
        rw [hcw] at hpl
        exact Bool.false_ne_true hpl
      | succ j =>
        have hmpos : 0 < m := by omega
        have hgl : (r.take m).getLast? = r.get? (m - 1) := take_getLast? hmpos hm
        have htkne : r.take m ≠ [] := by
          intro hc2
          have := congrArg List.length hc2
          rw [List.length_take, Nat.min_eq_left hm] at this
          simp at this
          omega
        have hgl2 : p.getLast? = r.get? (m - 1) := by
          rw [hpeq]
          rw [show (c :: r.take m) = [c] ++ r.take m from rfl]
          rw [List.getLast?_append_of_ne_nil _ htkne]
          exact hgl
        have hsome : ∃ e, r.get? (m - 1) = some e := by
          have : m - 1 < r.length := by omega
          rw [List.get?_eq_getElem?, List.getElem?_eq_getElem this]
          exact ⟨_, rfl⟩
        obtain ⟨e, he⟩ := hsome
        have hew : isWordChar e = false := by
          apply hprev
          rw [show (c :: r).get? m = r.get? (m - 1) from ?_]
          · exact he
          · cases hm0
            rfl
        have : p.getLastD ' ' = e := by
          rw [List.getLastD_eq_getLast?, hgl2, he]
          rfl
        rw [this, hew] at hpl
        exact Bool.false_ne_true hpl
    · -- the pattern spans the seam: two adjacent non-word characters inside it
      have hprep : (c :: r.take m) <+: p :=
        List.prefix_of_prefix_length_le (List.prefix_append _ _) hpfx (by omega)
      obtain ⟨p2, hp2⟩ := hprep
      have hp2pfx : p2 <+: out2 := by
        obtain ⟨t, ht⟩ := hpfx
        rw [← hp2] at ht
        rw [List.append_assoc] at ht
        exact ⟨t, List.append_cancel_left ht⟩
      have hp2ne : p2 ≠ [] := by
        intro hc2
        rw [hc2, List.append_nil] at hp2
        have := congrArg List.length hp2
        rw [hprelen] at this
        omega
      obtain ⟨d, p2t, hdp⟩ : ∃ d p2t, p2 = d :: p2t := by
        cases p2 with
        | nil => exact absurd rfl hp2ne
        | cons d t => exact ⟨d, t, rfl⟩
      have hdout : ∃ t, out2 = d :: t := cons_prefix_head (hdp ▸ hp2pfx)
      have hdw : isWordChar d = false := by
        obtain ⟨t, ht⟩ := hdout
        rw [ht] at hout2
        simpa [nonWordHead] using hout2
      -- the character before the seam inside p
      have hpre_ne : (c :: r.take m) ≠ [] := List.cons_ne_nil _ _
      obtain ⟨e, hlaste, hew⟩ : ∃ e, (c :: r.take m).getLast? = some e ∧ isWordChar e = false := by
        cases hm0 : m with
        | zero =>
          refine ⟨c, by simp, hprev c ?_⟩
          cases hm0
          rfl
        | succ j =>
          have hmpos : 0 < m := by omega
          rw [← hm0]
          have htkne : r.take m ≠ [] := by
            intro hc2
            have := congrArg List.length hc2
            rw [List.length_take, Nat.min_eq_left hm] at this
            simp at this
            omega
          have hsome : ∃ e, r.get? (m - 1) = some e := by
            have : m - 1 < r.length := by omega
            rw [List.get?_eq_getElem?, List.getElem?_eq_getElem this]
            exact ⟨_, rfl⟩
          obtain ⟨e, he⟩ := hsome
          refine ⟨e, ?_, ?_⟩
          · rw [show (c :: r.take m) = [c] ++ r.take m from rfl]
            rw [List.getLast?_append_of_ne_nil _ htkne]
            rw [take_getLast? hmpos hm]
            exact he
          · apply hprev
            rw [show (c :: r).get? m = r.get? (m - 1) from ?_]
            · exact he
            · cases hm0
              rfl
      have hpre_decomp : (c :: r.take m) = (c :: r.take m).dropLast ++ [e] := by
        have h1 := List.dropLast_append_getLast? e hlaste
        exact h1.symm
      have hpform : p = (c :: r.take m).dropLast ++ e :: d :: p2t := by
        conv_lhs => rw [← hp2, hdp]
        conv_lhs => rw [hpre_decomp]
        rw [List.append_assoc]
        rfl
      have := noTwoNonWord_append ((c :: r.take m).dropLast) (hpform ▸ hpadj)
      rcases this with h | h
      · rw [hew] at h; exact Bool.false_ne_true h
      · rw [hdw] at h; exact Bool.false_ne_true h

/-! ### The scan leaves no match behind -/

theorem PatsSpec.ne {pats : List (List Char)} (h : PatsSpec pats) : ∀ p ∈ pats, p ≠ [] :=
  fun p hp => (h p hp).1

theorem PatsSpec.headw {pats : List (List Char)} (h : PatsSpec pats) :
    ∀ p ∈ pats, p ≠ [] ∧ isWordChar (p.headD ' ') = true :=
  fun p hp => ⟨(h p hp).1, (h p hp).2.1⟩

theorem PatsSpec.lastw {pats : List (List Char)} (h : PatsSpec pats) :
    ∀ p ∈ pats, isWordChar (p.getLastD ' ') = true :=
  fun p hp => (h p hp).2.2.1

/-- A string with a non-word head has no match at position 0, so the two
boundary flags agree about it. -/
theorem hasMatch_true_of_false_nonword {pats : List (List Char)}
    (hh : ∀ p ∈ pats, p ≠ [] ∧ isWordChar (p.headD ' ') = true)
    {z : List Char} (hz : nonWordHead z = true)
    (h : hasMatch pats false z = false) : hasMatch pats true z = false := by
  cases z with
  | nil => rfl
  | cons d t =>
    have hd : isWordChar d = false := by simpa [nonWordHead] using hz
    rw [hasMatch_cons] at h ⊢
    rw [findPat_nonword_head hh hd]
    simpa using h

theorem hasMatch_append_false {pats : List (List Char)} :
    ∀ (pre : List Char) (atB : Bool) (suf : List Char),
      hasMatch pats atB (pre ++ suf) = false →
      hasMatch pats (flagEnd pre atB) suf = false := by
  intro pre
  induction pre with
  | nil => intro atB suf h; exact h
  | cons c pre ih =>
    intro atB suf h
    rw [List.cons_append, hasMatch_cons, Bool.or_eq_false_iff] at h
    have htail := ih (!isWordChar c) suf h.2
    have : flagEnd (c :: pre) atB = flagEnd pre (!isWordChar c) := by
      rw [flagEnd, flagEnd]
      cases hp : pre.getLast? with
      | some e => rw [List.getLast?_cons, hp]; rfl
      | none =>
        have : pre = [] := by
          cases pre with
          | nil => rfl
          | cons a t => simp [List.getLast?_eq_getElem?] at hp
        subst this
        rfl
    rw [this]
    exact htail

theorem hasMatch_scanGo {pats : List (List Char)} (hA : PatsSpec pats) :
    ∀ (fuel : Nat) (atB : Bool) (l : List Char), l.length ≤ fuel →
      hasMatch pats atB (scanGo pats fuel atB l) = false := by
  intro fuel
  induction fuel with
  | zero =>
    intro atB l h
    have : l = [] := List.eq_nil_of_length_eq_zero (Nat.le_zero.mp h)
    subst this
    rfl
  | succ f ih =>
    intro atB l hlen
    cases l with
    | nil => rfl
    | cons c r =>
      cases atB with
      | false =>
        rw [scanGo_cons_false, hasMatch_cons]
        simp only [Bool.false_and, Bool.false_or]
        exact ih (!isWordChar c) r (by simpa using hlen)
      | true =>
        cases hfp : findPat pats (c :: r) with
        | some p =>
          obtain ⟨hpmem, hpok⟩ := findPat_some hfp
          obtain ⟨htk, hnw⟩ := patOk_eq_true hpok
          have hstep0 : scanGo pats (f + 1) true (c :: r) =
              scanGo pats f (!isWordChar (p.getLastD ' ')) ((c :: r).drop p.length) := by
            rw [scanGo_cons_true, hfp]
          have hstep : scanGo pats (f + 1) true (c :: r) =
              scanGo pats f false ((c :: r).drop p.length) := by
            rw [hstep0, hA.lastw p hpmem]
            rfl
          have hdlen : ((c :: r).drop p.length).length ≤ f := by
            have hplen : 0 < p.length := by
              cases p with
              | nil => exact absurd rfl (hA.ne _ hpmem)
              | cons _ _ => simp
            rw [List.length_drop]
            simp only [List.length_cons] at hlen ⊢
            omega
          rw [hstep]
          refine hasMatch_true_of_false_nonword hA.headw ?_ (ih false _ hdlen)
          exact nonWordHead_scanGo hA.headw hnw f false
        | none =>
          rw [scanGo_cons_true, hfp, hasMatch_cons]
          rw [Bool.or_eq_false_iff]
          refine ⟨?_, ih (!isWordChar c) r (by simpa using hlen)⟩
          rw [Bool.and_eq_false_iff]
          right
          rcases scanGo_decomp hA.ne hA.lastw f (!isWordChar c) r (by simpa using hlen) with
            hid | ⟨m, p, hpB, hmle, htk, hnw, heq, hm0, hm1⟩
          · rw [hid, hfp]; rfl
          · have hout2 : nonWordHead (scanGo pats (r.drop (m + p.length)).length false
                (r.drop (m + p.length))) = true :=
              nonWordHead_scanGo hA.headw hnw _ _
            have hprev : ∀ e, (c :: r).get? m = some e → isWordChar e = false := by
              intro e he
              cases m with
              | zero =>
                have hec : c = e := by simpa using he
                subst hec
                simpa using hm0 rfl
              | succ j =>
                obtain ⟨e2, he2, hw2⟩ := hm1 (Nat.succ_pos j)
                have : e2 = e := by
                  rw [show (c :: r).get? (j + 1) = r.get? j from rfl] at he
                  rw [show j + 1 - 1 = j from rfl] at he2
                  rw [he2] at he
                  exact Option.some.inj he
                rw [← this]
                exact hw2
            have hmr : m ≤ r.length := by omega
            rw [heq]
            rw [findPat_transfer hA hmr hprev hout2 hfp]
            rfl

theorem hasMatch_scanGo_other {A B : List (List Char)} (hA : PatsSpec A) (hB : PatsSpec B) :
    ∀ (fuel : Nat) (atB : Bool) (l : List Char), l.length ≤ fuel →
      hasMatch A atB l = false →
      hasMatch A atB (scanGo B fuel atB l) = false := by
  intro fuel
  induction fuel with
  | zero =>
    intro atB l h hm
    have : l = [] := List.eq_nil_of_length_eq_zero (Nat.le_zero.mp h)
    subst this
    exact hm
  | succ f ih =>
    intro atB l hlen hm
    cases l with
    | nil => exact hm
    | cons c r =>
      rw [hasMatch_cons, Bool.or_eq_false_iff] at hm
      cases atB with
      | false =>
        rw [scanGo_cons_false, hasMatch_cons]
        simp only [Bool.false_and, Bool.false_or]
        exact ih (!isWordChar c) r (by simpa using hlen) hm.2
      | true =>
        have hfA : findPat A (c :: r) = none := by
          have := hm.1
          simp only [Bool.true_and] at this
          cases hq : findPat A (c :: r) with
          | some p => rw [hq] at this; simp at this
          | none => rfl
        cases hfp : findPat B (c :: r) with
        | some p =>
          obtain ⟨hpmem, hpok⟩ := findPat_some hfp
          obtain ⟨htk, hnw⟩ := patOk_eq_true hpok
          have hstep0 : scanGo B (f + 1) true (c :: r) =
              scanGo B f (!isWordChar (p.getLastD ' ')) ((c :: r).drop p.length) := by
            rw [scanGo_cons_true, hfp]
          have hstep : scanGo B (f + 1) true (c :: r) =
              scanGo B f false ((c :: r).drop p.length) := by
            rw [hstep0, hB.lastw p hpmem]
            rfl
          have hplen : 0 < p.length := by
            cases p with
            | nil => exact absurd rfl (hB.ne _ hpmem)
            | cons _ _ => simp
          have hdlen : ((c :: r).drop p.length).length ≤ f := by
            rw [List.length_drop]
            simp only [List.length_cons] at hlen ⊢
            omega
          have hsuffix : hasMatch A false ((c :: r).drop p.length) = false := by
            have hsplit : (c :: r) = p ++ (c :: r).drop p.length := by
              conv_lhs => rw [← List.take_append_drop p.length (c :: r)]
              rw [htk]
            have hin : hasMatch A true (p ++ (c :: r).drop p.length) = false := by
              rw [← hsplit, hasMatch_cons, Bool.or_eq_false_iff]
              exact hm
            have := hasMatch_append_false p true _ hin
            have hfe : flagEnd p true = false := by
              rw [flagEnd]
              cases hgl : p.getLast? with
              | none =>
                exfalso
                cases p with
                | nil => exact absurd rfl (hB.ne _ hpmem)
                | cons a t => simp [List.getLast?_eq_getElem?] at hgl
              | some e =>
                show (!isWordChar e) = false
                have hte : p.getLastD ' ' = e := by rw [List.getLastD_eq_getLast?, hgl]; rfl
                have hw := hB.lastw p hpmem
                rw [hte] at hw
                rw [hw]
                rfl
            rw [hfe] at this
            exact this
          rw [hstep]
          refine hasMatch_true_of_false_nonword hA.headw ?_ (ih false _ hdlen hsuffix)
          exact nonWordHead_scanGo hB.headw hnw f false
        | none =>
          rw [scanGo_cons_true, hfp, hasMatch_cons]
          rw [Bool.or_eq_false_iff]
          refine ⟨?_, ih (!isWordChar c) r (by simpa using hlen) hm.2⟩
          rw [Bool.and_eq_false_iff]
          right
          rcases scanGo_decomp hB.ne hB.lastw f (!isWordChar c) r (by simpa using hlen) with
            hid | ⟨m, p, hpB, hmle, htk, hnw, heq, hm0, hm1⟩
          · rw [hid, hfA]; rfl
          · have hout2 : nonWordHead (scanGo B (r.drop (m + p.length)).length false
                (r.drop (m + p.length))) = true :=
              nonWordHead_scanGo hB.headw hnw _ _
            have hprev : ∀ e, (c :: r).get? m = some e → isWordChar e = false := by
              intro e he
              cases m with
              | zero =>
                have hec : c = e := by simpa using he
                subst hec
                simpa using hm0 rfl
              | succ j =>
                obtain ⟨e2, he2, hw2⟩ := hm1 (Nat.succ_pos j)
                have : e2 = e := by
                  rw [show (c :: r).get? (j + 1) = r.get? j from rfl] at he
                  rw [show j + 1 - 1 = j from rfl] at he2
                  rw [he2] at he
                  exact Option.some.inj he
                rw [← this]
                exact hw2
            have hmr : m ≤ r.length := by omega
            rw [heq]
            rw [findPat_transfer hA hmr hprev hout2 hfA]
            rfl

/-! ### Matches survive restriction of the pattern set and trimming -/

theorem hasMatch_mono {P Q : List (List Char)} (hsub : ∀ p ∈ Q, p ∈ P) :
    ∀ (atB : Bool) (l : List Char), hasMatch P atB l = false → hasMatch Q atB l = false := by
  intro atB l
  induction l generalizing atB with
  | nil => intro _; rfl
  | cons c r ih =>
    intro h
    rw [hasMatch_cons, Bool.or_eq_false_iff] at h ⊢
    refine ⟨?_, ih (!isWordChar c) h.2⟩
    cases atB with
    | false => rfl
    | true =>
      have hfP : findPat P (c :: r) = none := by
        have := h.1
        cases hq : findPat P (c :: r) with
        | some p => rw [hq] at this; simp at this
        | none => rfl
      have hfQ : findPat Q (c :: r) = none := by
        rw [findPat_none_iff] at hfP ⊢
        intro p hp
        exact hfP p (hsub p hp)
      rw [hfQ]
      rfl

theorem patOk_append {u v p : List Char} (hv : nonWordHead v = true)
    (h : patOk u p = true) : patOk (u ++ v) p = true := by
  obtain ⟨htk, hnw⟩ := patOk_eq_true h
  have hple : p.length ≤ u.length := by
    have := congrArg List.length htk
    rw [List.length_take] at this
    omega
  apply patOk_of
  · rw [List.take_append_of_le_length hple, htk]
  · rw [List.drop_append_of_le_length hple]
    cases hdu : u.drop p.length with
    | nil => simpa [hdu] using hv
    | cons x t =>
      rw [hdu] at hnw
      simpa [nonWordHead] using hnw

theorem hasMatch_truncate {P : List (List Char)} {v : List Char}
    (hv : nonWordHead v = true) :
    ∀ (u : List Char) (atB : Bool), hasMatch P atB (u ++ v) = false →
      hasMatch P atB u = false := by
  intro u
  induction u with
  | nil => intro atB _; rfl
  | cons c r ih =>
    intro atB h
    rw [List.cons_append, hasMatch_cons, Bool.or_eq_false_iff] at h
    rw [hasMatch_cons, Bool.or_eq_false_iff]
    refine ⟨?_, ih (!isWordChar c) h.2⟩
    cases atB with
    | false => rfl
    | true =>
      have hfull : findPat P (c :: (r ++ v)) = none := by
        have := h.1
        cases hq : findPat P (c :: (r ++ v)) with
        | some p => rw [hq] at this; simp at this
        | none => rfl
      have htrunc : findPat P (c :: r) = none := by
        rw [findPat_none_iff] at hfull ⊢
        intro p hp
        by_contra hcontra
        have hok : patOk (c :: r) p = true := by
          cases hq : patOk (c :: r) p with
          | true => rfl
          | false => exact absurd hq hcontra
        have := patOk_append hv hok
        rw [show (c :: r) ++ v = c :: (r ++ v) from rfl] at this
        rw [hfull p hp] at this
        exact Bool.false_ne_true this
      rw [htrunc]
      rfl

theorem flagEnd_nonword {pre : List Char}
    (h : ∀ c ∈ pre, isWordChar c = false) : flagEnd pre true = true := by
  rw [flagEnd]
  cases hgl : pre.getLast? with
  | none => rfl
  | some e =>
    have he : e ∈ pre := List.mem_of_mem_getLast? hgl
    show (!isWordChar e) = true
    rw [h e he]
    rfl

theorem hasMatch_dropWhileWs {P : List (List Char)} {l : List Char}
    (h : hasMatch P true l = false) :
    hasMatch P true (l.dropWhile isJsWs) = false := by
  have hsplit : l = l.takeWhile isJsWs ++ l.dropWhile isJsWs :=
    (List.takeWhile_append_dropWhile isJsWs l).symm
  have hws : ∀ c ∈ l.takeWhile isJsWs, isWordChar c = false := by
    intro c hc
    exact isJsWs_not_word (List.mem_takeWhile_imp hc)
  have := hasMatch_append_false (l.takeWhile isJsWs) true (l.dropWhile isJsWs)
    (by rw [← hsplit]; exact h)
  rw [flagEnd_nonword hws] at this
  exact this

theorem dropTrailingWs_cons (c : Char) (r : List Char) :
    dropTrailingWs (c :: r) =
      if (dropTrailingWs r).isEmpty && isJsWs c then [] else c :: dropTrailingWs r := by
  rfl

theorem dropTrailingWs_decomp (l : List Char) :
    ∃ w, l = dropTrailingWs l ++ w ∧ ∀ c ∈ w, isJsWs c = true := by
  induction l with
  | nil => exact ⟨[], rfl, by intro c hc; simp at hc⟩
  | cons c r ih =>
    obtain ⟨w, hw, hws⟩ := ih
    rw [dropTrailingWs_cons]
    by_cases hc : (dropTrailingWs r).isEmpty && isJsWs c
    · rw [if_pos hc]
      rw [Bool.and_eq_true] at hc
      have hre : dropTrailingWs r = [] := by
        cases hq : dropTrailingWs r with
        | nil => rfl
        | cons x t => rw [hq] at hc; simp [List.isEmpty] at hc
      refine ⟨c :: w, ?_, ?_⟩
      · rw [hre] at hw
        simpa using congrArg (c :: ·) hw
      · intro d hd
        rcases List.mem_cons.mp hd with hd | hd
        · rw [hd]; exact hc.2
        · exact hws d hd
    · rw [if_neg hc]
      exact ⟨w, by rw [List.cons_append, ← hw], hws⟩

theorem hasMatch_dropTrailingWs {P : List (List Char)} {l : List Char} (atB : Bool)
    (h : hasMatch P atB l = false) :
    hasMatch P atB (dropTrailingWs l) = false := by
  obtain ⟨w, hw, hws⟩ := dropTrailingWs_decomp l
  have hv : nonWordHead w = true := by
    cases w with
    | nil => rfl
    | cons x t =>
      have := isJsWs_not_word (hws x (List.mem_cons_self x t))
      simpa [nonWordHead] using this
  exact hasMatch_truncate hv (dropTrailingWs l) atB (by rw [← hw]; exact h)

theorem hasMatch_jsTrim {P : List (List Char)} {l : List Char}
    (h : hasMatch P true l = false) :
    hasMatch P true (jsTrim l) = false := by
  rw [jsTrim]
  exact hasMatch_dropTrailingWs true (hasMatch_dropWhileWs h)

/-! ### Characters of pipeline outputs -/

theorem normalizeChars_eq (l : List Char) :
    normalizeChars l =
      jsTrim (scanStrip qualifierWords (scanStrip articleWords
        (collapseWs (charStage l)))) := rfl

theorem mem_scanGo {pats : List (List Char)} :
    ∀ (fuel : Nat) (atB : Bool) (l : List Char) (c : Char),
      c ∈ scanGo pats fuel atB l → c ∈ l := by
  intro fuel
  induction fuel with
  | zero => intro atB l c h; exact h
  | succ f ih =>
    intro atB l c h
    cases l with
    | nil => simpa [scanGo] using h
    | cons x r =>
      cases atB with
      | false =>
        rw [scanGo_cons_false] at h
        rcases List.mem_cons.mp h with h | h
        · exact h ▸ List.mem_cons_self x r
        · exact List.mem_cons_of_mem x (ih _ r c h)
      | true =>
        rw [scanGo_cons_true] at h
        cases hfp : findPat pats (x :: r) with
        | some p =>
          rw [hfp] at h
          exact List.mem_of_mem_drop (ih _ _ c h)
        | none =>
          rw [hfp] at h
          rcases List.mem_cons.mp h with h | h
          · exact h ▸ List.mem_cons_self x r
          · exact List.mem_cons_of_mem x (ih _ r c h)

theorem mem_collapseGo :
    ∀ (l : List Char) (b : Bool) (c : Char),
      c ∈ collapseGo b l → c = ' ' ∨ c ∈ l := by
  intro l
  induction l with
  | nil => intro b c h; simpa [collapseGo] using h
  | cons x r ih =>
    intro b c h
    by_cases hx : isJsWs x = true
    · cases b with
      | true =>
        rw [show collapseGo true (x :: r) = collapseGo true r from by
          rw [collapseGo, if_pos hx]] at h
        rcases ih true c h with h | h
        · exact Or.inl h
        · exact Or.inr (List.mem_cons_of_mem x h)
      | false =>
        rw [show collapseGo false (x :: r) = ' ' :: collapseGo true r from by
          rw [collapseGo, if_pos hx]] at h
        rcases List.mem_cons.mp h with h | h
        · exact Or.inl h
        · rcases ih true c h with h | h
          · exact Or.inl h
          · exact Or.inr (List.mem_cons_of_mem x h)
    · have hx2 : isJsWs x = false := Bool.not_eq_true _ ▸ (by simpa using hx)
      have hcc : collapseGo b (x :: r) = x :: collapseGo false r := by
        cases b with
        | true => rw [collapseGo, if_neg (by simp [hx2])]
        | false => rw [collapseGo, if_neg (by simp [hx2])]
      rw [hcc] at h
      rcases List.mem_cons.mp h with h | h
      · exact Or.inr (h ▸ List.mem_cons_self x r)
      · rcases ih false c h with h | h
        · exact Or.inl h
        · exact Or.inr (List.mem_cons_of_mem x h)

theorem mem_dropTrailingWs {l : List Char} {c : Char}
    (h : c ∈ dropTrailingWs l) : c ∈ l := by
  obtain ⟨w, hw, _⟩ := dropTrailingWs_decomp l
  rw [hw]
  exact List.mem_append_left w h

theorem mem_jsTrim {l : List Char} {c : Char} (h : c ∈ jsTrim l) : c ∈ l :=
  (List.dropWhile_sublist isJsWs).subset (mem_dropTrailingWs h)

theorem jsToLower_fix (c : Char) : jsToLower (jsToLower c) = jsToLower c := by
  by_cases h : 65 ≤ c.toNat ∧ c.toNat ≤ 90
  · have h1 : jsToLower c = Char.ofNat (c.toNat + 32) := by rw [jsToLower, if_pos h]
    have h2 : (Char.ofNat (c.toNat + 32)).toNat = c.toNat + 32 := by
      unfold Char.ofNat
      rw [dif_pos (Or.inl (by omega))]
      rfl
    rw [h1]
    rw [jsToLower, h2, if_neg (by omega)]
  · have hc : jsToLower c = c := by rw [jsToLower, if_neg h]
    rw [hc, hc]

theorem charP_charStage {l : List Char} :
    ∀ d ∈ charStage l, charP d = true := by
  intro d hd
  rw [charStage] at hd
  obtain ⟨e, he, hge⟩ := List.mem_map.mp hd
  obtain ⟨hmem, hglyph⟩ := List.mem_filter.mp he
  obtain ⟨e0, _, hje⟩ := List.mem_map.mp hmem
  by_cases hp : isPunctRep e = true
  · rw [if_pos hp] at hge
    rw [← hge]
    decide
  · have hp2 : isPunctRep e = false := Bool.not_eq_true _ ▸ (by simpa using hp)
    rw [if_neg (by simp [hp2])] at hge
    subst hge
    have hlow : jsToLower e = e := by rw [← hje, jsToLower_fix]
    rw [charP, hlow]
    simp only [Bool.and_eq_true, beq_self_eq_true, true_and]
    constructor
    · simpa using hglyph
    · simp [hp2]

theorem charStage_id {t : List Char} (h : ∀ d ∈ t, charP d = true) :
    charStage t = t := by
  have hps : ∀ d ∈ t, jsToLower d = d ∧ isGlyph d = false ∧ isPunctRep d = false := by
    intro d hd
    have := h d hd
    rw [charP] at this
    simp only [Bool.and_eq_true, beq_iff_eq, Bool.not_eq_true'] at this
    exact ⟨this.1.1, this.1.2, this.2⟩
  rw [charStage]
  have h1 : t.map jsToLower = t := by
    conv_rhs => rw [← List.map_id t]
    exact List.map_congr_left (fun d hd => (hps d hd).1)
  rw [h1]
  have h2 : t.filter (fun c => !isGlyph c) = t :=
    List.filter_eq_self.mpr (fun d hd => by simp [(hps d hd).2.1])
  rw [h2]
  conv_rhs => rw [← List.map_id t]
  exact List.map_congr_left (fun d hd => by rw [if_neg (by simp [(hps d hd).2.2])]; rfl)

theorem charP_normalize {l : List Char} :
    ∀ d ∈ normalizeChars l, charP d = true := by
  intro d hd
  rw [normalizeChars_eq] at hd
  have h1 := mem_jsTrim hd
  rw [scanStrip] at h1
  have h2 := mem_scanGo _ _ _ _ h1
  rw [scanStrip] at h2
  have h3 := mem_scanGo _ _ _ _ h2
  rw [collapseWs] at h3
  rcases mem_collapseGo _ _ _ h3 with h4 | h4
  · rw [h4]; decide
  · exact charP_charStage d h4

/-! ### Structure of whitespace after collapsing, and trim idempotence -/

theorem collapseGo_true_head :
    ∀ (r : List Char) (c : Char) (t : List Char),
      collapseGo true r = c :: t → isJsWs c = false := by
  intro r
  induction r with
  | nil => intro c t h; simp [collapseGo] at h
  | cons x r ih =>
    intro c t h
    by_cases hx : isJsWs x = true
    · rw [collapseGo, if_pos hx] at h
      exact ih c t h
    · have hx2 : isJsWs x = false := Bool.not_eq_true _ ▸ (by simpa using hx)
      rw [collapseGo, if_neg (by simp [hx2])] at h
      have : x = c := (List.cons.injEq _ _ _ _ ▸ h).1
      rw [← this]
      exact hx2

theorem noAdjWs_tail {c : Char} {X : List Char}
    (h : noAdjWs (c :: X) = true) : noAdjWs X = true := by
  cases X with
  | nil => rfl
  | cons d t =>
    rw [noAdjWs, Bool.and_eq_true] at h
    exact h.2

theorem noAdjWs_cons_of {c : Char} {X : List Char} (h1 : noAdjWs X = true)
    (h2 : ∀ d t, X = d :: t → (isJsWs c && isJsWs d) = false) :
    noAdjWs (c :: X) = true := by
  cases X with
  | nil => rfl
  | cons d t =>
    rw [noAdjWs, Bool.and_eq_true]
    exact ⟨by simp [h2 d t rfl], h1⟩

theorem noAdjWs_collapseGo :
    ∀ (l : List Char) (b : Bool), noAdjWs (collapseGo b l) = true := by
  intro l
  induction l with
  | nil => intro b; cases b <;> rfl
  | cons x r ih =>
    intro b
    by_cases hx : isJsWs x = true
    · cases b with
      | true =>
        rw [collapseGo, if_pos hx]
        exact ih true
      | false =>
        rw [collapseGo, if_pos hx]
        refine noAdjWs_cons_of (ih true) ?_
        intro d t hdt
        rw [collapseGo_true_head r d t hdt]
        rfl
    · have hx2 : isJsWs x = false := Bool.not_eq_true _ ▸ (by simpa using hx)
      have hcc : collapseGo b (x :: r) = x :: collapseGo false r := by
        cases b with
        | true => rw [collapseGo, if_neg (by simp [hx2])]
        | false => rw [collapseGo, if_neg (by simp [hx2])]
      rw [hcc]
      refine noAdjWs_cons_of (ih false) ?_
      intro d t _
      rw [hx2]
      rfl

theorem allWsSpace_collapseGo :
    ∀ (l : List Char) (b : Bool), allWsSpace (collapseGo b l) = true := by
  intro l
  induction l with
  | nil => intro b; cases b <;> rfl
  | cons x r ih =>
    intro b
    by_cases hx : isJsWs x = true
    · cases b with
      | true =>
        rw [collapseGo, if_pos hx]
        exact ih true
      | false =>
        rw [collapseGo, if_pos hx]
        rw [allWsSpace, List.all_cons]
        exact Bool.and_eq_true _ _ ▸ ⟨by decide, ih true⟩
    · have hx2 : isJsWs x = false := Bool.not_eq_true _ ▸ (by simpa using hx)
      have hcc : collapseGo b (x :: r) = x :: collapseGo false r := by
        cases b with
        | true => rw [collapseGo, if_neg (by simp [hx2])]
        | false => rw [collapseGo, if_neg (by simp [hx2])]
      rw [hcc, allWsSpace, List.all_cons]
      exact Bool.and_eq_true _ _ ▸ ⟨by simp [hx2], ih false⟩

theorem allWsSpace_of_subset {u v : List Char} (hsub : ∀ c ∈ u, c ∈ v)
    (h : allWsSpace v = true) : allWsSpace u = true := by
  rw [allWsSpace, List.all_eq_true] at h ⊢
  exact fun c hc => h c (hsub c hc)

theorem noAdjWs_append {u v : List Char} :
    noAdjWs (u ++ v) = true → noAdjWs u = true ∧ noAdjWs v = true := by
  induction u with
  | nil => intro h; exact ⟨rfl, h⟩
  | cons c u ih =>
    intro h
    cases u with
    | nil =>
      rw [List.nil_append] at *
      exact ⟨rfl, noAdjWs_tail h⟩
    | cons d t =>
      rw [List.cons_append, List.cons_append, noAdjWs, Bool.and_eq_true] at h
      have h2 := ih (by rw [List.cons_append]; exact h.2)
      refine ⟨?_, h2.2⟩
      rw [noAdjWs, Bool.and_eq_true]
      exact ⟨h.1, h2.1⟩

theorem collapseGo_id :
    ∀ l : List Char, allWsSpace l = true → noAdjWs l = true →
      collapseGo false l = l ∧
      ((∀ d t, l = d :: t → isJsWs d = false) → collapseGo true l = l) := by
  intro l
  induction l with
  | nil => exact fun _ _ => ⟨rfl, fun _ => rfl⟩
  | cons c r ih =>
    intro hall hadj
    rw [allWsSpace, List.all_cons, Bool.and_eq_true] at hall
    have hallr : allWsSpace r = true := hall.2
    have hadjr : noAdjWs r = true := noAdjWs_tail hadj
    obtain ⟨ih1, ih2⟩ := ih hallr hadjr
    by_cases hc : isJsWs c = true
    · have hsp : c = ' ' := by
        have := hall.1
        rw [hc] at this
        simpa using this
      have hrt : collapseGo true r = r := by
        refine ih2 ?_
        intro d t hdt
        subst hdt
        rw [noAdjWs, Bool.and_eq_true] at hadj
        have := hadj.1
        rw [hc] at this
        simpa using this
      constructor
      · rw [collapseGo, if_pos hc, hrt, hsp]
      · intro hhead
        exact absurd (hhead c r rfl) (by simp [hc])
    · have hc2 : isJsWs c = false := Bool.not_eq_true _ ▸ (by simpa using hc)
      constructor
      · rw [collapseGo, if_neg (by simp [hc2]), ih1]
      · intro _
        rw [collapseGo, if_neg (by simp [hc2]), ih1]

theorem dropWhile_head_not {p : Char → Bool} :
    ∀ (l : List Char) (d : Char) (t : List Char),
      l.dropWhile p = d :: t → p d = false := by
  intro l
  induction l with
  | nil => intro d t h; simp at h
  | cons x r ih =>
    intro d t h
    by_cases hx : p x = true
    · rw [List.dropWhile_cons, if_pos hx] at h
      exact ih d t h
    · have hx2 : p x = false := Bool.not_eq_true _ ▸ (by simpa using hx)
      rw [List.dropWhile_cons, if_neg (by simp [hx2])] at h
      have : x = d := (List.cons.injEq _ _ _ _ ▸ h).1
      rw [← this]
      exact hx2

theorem dropWhile_eq_self_of {p : Char → Bool} {l : List Char}
    (h : ∀ d t, l = d :: t → p d = false) : l.dropWhile p = l := by
  cases l with
  | nil => rfl
  | cons c r => rw [List.dropWhile_cons, if_neg (by simp [h c r rfl])]

theorem dropTrailingWs_getLast :
    ∀ (l : List Char) (e : Char), (dropTrailingWs l).getLast? = some e →
      isJsWs e = false := by
  intro l
  induction l with
  | nil => intro e h; simp [dropTrailingWs] at h
  | cons c r ih =>
    intro e h
    rw [dropTrailingWs_cons] at h
    by_cases hcond : (dropTrailingWs r).isEmpty && isJsWs c
    · rw [if_pos hcond] at h
      simp at h
    · rw [if_neg hcond] at h
      cases hq : dropTrailingWs r with
      | nil =>
        rw [hq] at h hcond
        have : c = e := by simpa using h
        subst this
        simpa using hcond
      | cons y ys =>
        rw [hq, List.getLast?_cons_cons] at h
        exact ih e (by rw [hq]; exact h)

theorem dropTrailingWs_eq_self {l : List Char}
    (h : ∀ e, l.getLast? = some e → isJsWs e = false) : dropTrailingWs l = l := by
  induction l with
  | nil => rfl
  | cons c r ih =>
    rw [dropTrailingWs_cons]
    cases r with
    | nil =>
      have hc : isJsWs c = false := h c (by simp)
      simp [show dropTrailingWs ([] : List Char) = [] from rfl, hc]
    | cons d t =>
      have hr2 : dropTrailingWs (d :: t) = d :: t := by
        refine ih ?_
        intro e he
        refine h e ?_
        rw [List.getLast?_cons_cons]
        exact he
      rw [hr2]
      simp

theorem jsTrim_head :
    ∀ (l : List Char) (d : Char) (t : List Char), jsTrim l = d :: t →
      isJsWs d = false := by
  intro l d t h
  rw [jsTrim] at h
  obtain ⟨w, hw, _⟩ := dropTrailingWs_decomp (l.dropWhile isJsWs)
  rw [h] at hw
  rw [List.cons_append] at hw
  exact dropWhile_head_not l d _ hw

theorem jsTrim_idem (l : List Char) : jsTrim (jsTrim l) = jsTrim l := by
  rw [jsTrim]
  rw [dropWhile_eq_self_of (jsTrim_head l)]
  refine dropTrailingWs_eq_self ?_
  intro e he
  rw [jsTrim] at he
  exact dropTrailingWs_getLast _ e he

/-! ### Whitespace collapsing cannot create a whole-word match -/

theorem PatsAllWord.headWord {P : List (List Char)} (h : PatsAllWord P) :
    ∀ p ∈ P, p ≠ [] ∧ isWordChar (p.headD ' ') = true := by
  intro p hp
  refine ⟨(h p hp).1, ?_⟩
  cases p with
  | nil => exact absurd rfl (h [] hp).1
  | cons a t =>
    have := List.all_eq_true.mp (h _ hp).2
    exact this a (List.mem_cons_self a t)

theorem PatsAllWord.mem {P : List (List Char)} (h : PatsAllWord P)
    {p : List Char} (hp : p ∈ P) : ∀ c ∈ p, isWordChar c = true :=
  fun c hc => List.all_eq_true.mp (h p hp).2 c hc

theorem patOk_cons (x a : Char) (X p : List Char) :
    patOk (x :: X) (a :: p) = ((x == a) && patOk X p) := by
  rw [patOk, patOk]
  rw [List.length_cons, List.take_succ_cons, List.drop_succ_cons]
  show ((x :: X.take p.length) == (a :: p) && _) = _
  rw [List.cons_beq_cons]
  rw [Bool.and_assoc]

theorem patOk_collapse {p : List Char} (hw : ∀ c ∈ p, isWordChar c = true) :
    ∀ l : List Char, patOk (collapseGo false l) p = true → patOk l p = true := by
  induction p with
  | nil =>
    intro l h
    rw [patOk] at h ⊢
    simp only [List.length_nil, List.take_zero, List.drop_zero] at h ⊢
    simp only [Bool.and_eq_true] at h ⊢
    refine ⟨by simp, ?_⟩
    cases l with
    | nil => rfl
    | cons d r =>
      by_cases hd : isJsWs d = true
      · simpa [nonWordHead] using isJsWs_not_word hd
      · have hd2 : isJsWs d = false := Bool.not_eq_true _ ▸ (by simpa using hd)
        rw [collapseGo, if_neg (by simp [hd2])] at h
        exact h.2
  | cons a p ih =>
    intro l h
    cases l with
    | nil => simp [collapseGo, patOk] at h
    | cons d r =>
      by_cases hd : isJsWs d = true
      · rw [collapseGo, if_pos hd, patOk_cons] at h
        rw [Bool.and_eq_true] at h
        have : (' ' : Char) = a := by simpa using h.1
        have ha : isWordChar a = true := hw a (List.mem_cons_self a p)
        rw [← this] at ha
        exact absurd ha (by decide)
      · have hd2 : isJsWs d = false := Bool.not_eq_true _ ▸ (by simpa using hd)
        rw [collapseGo, if_neg (by simp [hd2]), patOk_cons, Bool.and_eq_true] at h
        rw [patOk_cons, Bool.and_eq_true]
        exact ⟨h.1, ih (fun c hc => hw c (List.mem_cons_of_mem a hc)) r h.2⟩

theorem hasMatch_collapse {P : List (List Char)} (hP : PatsAllWord P) :
    ∀ (l : List Char) (b atB : Bool), hasMatch P atB l = false →
      hasMatch P atB (collapseGo b l) = false := by
  intro l
  induction l with
  | nil => intro b atB h; cases b <;> exact h
  | cons c r ih =>
    intro b atB h
    rw [hasMatch_cons, Bool.or_eq_false_iff] at h
    by_cases hc : isJsWs c = true
    · have hcw : isWordChar c = false := isJsWs_not_word hc
      have htail : hasMatch P true r = false := by
        have := h.2
        rw [hcw] at this
        simpa using this
      cases b with
      | true =>
        rw [collapseGo, if_pos hc]
        have htrue : hasMatch P true (collapseGo true r) = false := ih true true htail
        cases atB with
        | true => exact htrue
        | false => exact hasMatch_false_of_true htrue
      | false =>
        rw [collapseGo, if_pos hc]
        rw [hasMatch_cons, Bool.or_eq_false_iff]
        constructor
        · rw [findPat_nonword_head hP.headWord (by decide)]
          simp
        · have hsp : (!isWordChar ' ') = true := by decide
          rw [hsp]
          exact ih true true htail
    · have hc2 : isJsWs c = false := Bool.not_eq_true _ ▸ (by simpa using hc)
      have hcc : collapseGo b (c :: r) = c :: collapseGo false r := by
        cases b with
        | true => rw [collapseGo, if_neg (by simp [hc2])]
        | false => rw [collapseGo, if_neg (by simp [hc2])]
      rw [hcc, hasMatch_cons, Bool.or_eq_false_iff]
      refine ⟨?_, ih false (!isWordChar c) h.2⟩
      cases atB with
      | false => rfl
      | true =>
        have hfr : findPat P (c :: r) = none := by
          have := h.1
          cases hq : findPat P (c :: r) with
          | some p => rw [hq] at this; simp at this
          | none => rfl
        have hnone : findPat P (c :: collapseGo false r) = none := by
          rw [findPat_none_iff] at hfr ⊢
          intro p hp
          by_contra hcon
          have hok : patOk (c :: collapseGo false r) p = true := by
            cases hq : patOk (c :: collapseGo false r) p with
            | true => rfl
            | false => exact absurd hq hcon
          have hccf : collapseGo false (c :: r) = c :: collapseGo false r := by
            rw [collapseGo, if_neg (by simp [hc2])]
          rw [← hccf] at hok
          have := patOk_collapse (hP.mem hp) (c :: r) hok
          rw [hfr p hp] at this
          exact Bool.false_ne_true this
        rw [hnone]
        rfl

theorem hasMatch_pair_of {p q : List Char} :
    ∀ (l : List Char) (atB : Bool),
      hasMatch [p] atB l = false → hasMatch [q] atB l = false →
      hasMatch [p, q] atB l = false := by
  intro l
  induction l with
  | nil => intro atB _ _; rfl
  | cons c r ih =>
    intro atB h1 h2
    rw [hasMatch_cons, Bool.or_eq_false_iff] at h1 h2 ⊢
    refine ⟨?_, ih (!isWordChar c) h1.2 h2.2⟩
    cases atB with
    | false => rfl
    | true =>
      have f1 : findPat [p] (c :: r) = none := by
        have := h1.1
        cases hq : findPat [p] (c :: r) with
        | some x => rw [hq] at this; simp at this
        | none => rfl
      have f2 : findPat [q] (c :: r) = none := by
        have := h2.1
        cases hq : findPat [q] (c :: r) with
        | some x => rw [hq] at this; simp at this
        | none => rfl
      have : findPat [p, q] (c :: r) = none := by
        rw [findPat_none_iff] at f1 f2 ⊢
        intro x hx
        rcases List.mem_cons.mp hx with hx | hx
        · exact hx ▸ f1 p (List.mem_singleton_self p)
        · rw [List.mem_singleton] at hx
          exact hx ▸ f2 q (List.mem_singleton_self q)
      rw [this]
      rfl

/-! ### Positional characterisation of matches -/

theorem hasMatch_extract {P : List (List Char)} :
    ∀ (l : List Char) (atB : Bool), hasMatch P atB l = true →
      ∃ i p, p ∈ P ∧ patOk (l.drop i) p = true ∧
        ((i = 0 ∧ atB = true) ∨
          (∃ j e, i = j + 1 ∧ l.get? j = some e ∧ isWordChar e = false)) := by
  intro l
  induction l with
  | nil => intro atB h; simp [hasMatch] at h
  | cons c r ih =>
    intro atB h
    rw [hasMatch_cons, Bool.or_eq_true] at h
    rcases h with h | h
    · rw [Bool.and_eq_true] at h
      obtain ⟨p, hfp⟩ := Option.isSome_iff_exists.mp h.2
      obtain ⟨hpmem, hpok⟩ := findPat_some hfp
      exact ⟨0, p, hpmem, by simpa using hpok, Or.inl ⟨rfl, h.1⟩⟩
    · obtain ⟨i, p, hpmem, hpok, hb⟩ := ih (!isWordChar c) h
      refine ⟨i + 1, p, hpmem, by simpa using hpok, Or.inr ?_⟩
      rcases hb with ⟨hi0, hflag⟩ | ⟨j, e, hij, hget, hw⟩
      · refine ⟨0, c, by rw [hi0], rfl, ?_⟩
        simpa using hflag
      · exact ⟨j + 1, e, by rw [hij], by simpa using hget, hw⟩

theorem hasMatch_of_occurrence {P : List (List Char)} {p : List Char}
    (hp : p ∈ P) (hne : p ≠ []) :
    ∀ (l : List Char) (atB : Bool) (i : Nat), patOk (l.drop i) p = true →
      ((i = 0 ∧ atB = true) ∨
        (∃ j e, i = j + 1 ∧ l.get? j = some e ∧ isWordChar e = false)) →
      hasMatch P atB l = true := by
  intro l
  induction l with
  | nil =>
    intro atB i hok _
    exfalso
    cases p with
    | nil => exact hne rfl
    | cons a t => simp [patOk] at hok
  | cons c r ih =>
    intro atB i hok hb
    cases i with
    | zero =>
      rcases hb with ⟨_, hatB⟩ | ⟨j, e, hij, _, _⟩
      · rw [hasMatch_cons, Bool.or_eq_true]
        left
        rw [Bool.and_eq_true]
        refine ⟨hatB, ?_⟩
        rw [findPat, List.find?_isSome]
        exact ⟨p, hp, by simpa using hok⟩
      · exact absurd hij (by omega)
    | succ k =>
      rcases hb with ⟨h0, _⟩ | ⟨j, e, hij, hget, hw⟩
      · exact absurd h0 (by omega)
      · have hjk : j = k := by omega
        rw [hjk] at hget
        rw [hasMatch_cons, Bool.or_eq_true]
        right
        refine ih (!isWordChar c) k (by simpa using hok) ?_
        cases k with
        | zero =>
          left
          refine ⟨rfl, ?_⟩
          have : c = e := by simpa using hget
          rw [this, hw]
          rfl
        | succ m =>
          right
          exact ⟨m, e, rfl, by simpa using hget, hw⟩

/-- A whole-word occurrence of the goty phrase contains a whole-word
occurrence of the article "the" eight characters in. -/
theorem phrase_article {l : List Char} (atB : Bool)
    (h : hasMatch articleWords true l = false) :
    hasMatch [gotyPhrase] atB l = false := by
  by_contra hcon
  have hm : hasMatch [gotyPhrase] atB l = true := by
    cases hq : hasMatch [gotyPhrase] atB l with
    | true => rfl
    | false => exact absurd hq hcon
  obtain ⟨i, p, hpmem, hpok, _⟩ := hasMatch_extract l atB hm
  have hpe : p = gotyPhrase := by simpa using hpmem
  subst hpe
  obtain ⟨htk, _⟩ := patOk_eq_true hpok
  obtain ⟨z, hD⟩ : ∃ z, l.drop i = gotyPhrase ++ z := by
    refine ⟨(l.drop i).drop gotyPhrase.length, ?_⟩
    conv_lhs => rw [← List.take_append_drop gotyPhrase.length (l.drop i)]
    rw [htk]
  have hthe : [Char.ofNat 116, Char.ofNat 104, Char.ofNat 101] ∈ articleWords := by decide
  have hmatch : hasMatch articleWords true l = true := by
    refine hasMatch_of_occurrence hthe (by decide) l true (i + 8) ?_ (Or.inr ?_)
    · have hd8 : l.drop (i + 8) = gotyPhrase.drop 8 ++ z := by
        have h1 : l.drop (i + 8) = (l.drop i).drop 8 := (List.drop_drop 8 i l).symm
        rw [h1, hD, List.drop_append_of_le_length (by decide)]
      have hsplit : gotyPhrase.drop 8 =
          [Char.ofNat 116, Char.ofNat 104, Char.ofNat 101] ++
            (Char.ofNat 32 :: gotyPhrase.drop 12) := by decide
      rw [hd8, hsplit, List.append_assoc]
      apply patOk_of
      · exact List.take_left _ _
      · rw [List.drop_left]
        show (!isWordChar (Char.ofNat 32)) = true
        decide
    · refine ⟨i + 7, Char.ofNat 32, rfl, ?_, by decide⟩
      have h7 : l.get? (i + 7) = (l.drop i).get? 7 := (List.get?_drop l i 7).symm
      rw [h7, hD]
      rw [List.get?_append (by decide)]
      decide
  rw [h] at hmatch
  exact Bool.false_ne_true hmatch

/-! ### The normalization pipeline leaves no removable word behind -/

theorem patsSpec_articleWords : PatsSpec articleWords := by
  unfold PatsSpec PatSpec
  decide

theorem patsSpec_qualifierWords : PatsSpec qualifierWords := by
  unfold PatsSpec PatSpec
  decide

theorem patsAllWord_articleWords : PatsAllWord articleWords := by
  unfold PatsAllWord
  decide

theorem patsAllWord_gotyWord : PatsAllWord [gotyWord] := by
  unfold PatsAllWord
  decide

theorem hasMatch_article_normalizeChars (l : List Char) :
    hasMatch articleWords true (normalizeChars l) = false := by
  rw [normalizeChars_eq]
  apply hasMatch_jsTrim
  rw [scanStrip]
  apply hasMatch_scanGo_other patsSpec_articleWords patsSpec_qualifierWords _ true _ le_rfl
  rw [scanStrip]
  exact hasMatch_scanGo patsSpec_articleWords _ true _ le_rfl

theorem hasMatch_qual_normalizeChars (l : List Char) :
    hasMatch qualifierWords true (normalizeChars l) = false := by
  rw [normalizeChars_eq]
  apply hasMatch_jsTrim
  rw [scanStrip]
  exact hasMatch_scanGo patsSpec_qualifierWords _ true _ le_rfl

theorem hasMatch_gotyWord_normalizeChars (l : List Char) :
    hasMatch [gotyWord] true (normalizeChars l) = false := by
  refine hasMatch_mono ?_ true _ (hasMatch_qual_normalizeChars l)
  intro p hp
  rw [List.mem_singleton] at hp
  rw [hp]
  exact List.mem_cons_self _ _

theorem hasMatch_article_collapse_normalize (l : List Char) :
    hasMatch articleWords true (collapseWs (normalizeChars l)) = false :=
  hasMatch_collapse patsAllWord_articleWords (normalizeChars l) false true
    (hasMatch_article_normalizeChars l)

theorem hasMatch_qual_collapse_normalize (l : List Char) :
    hasMatch qualifierWords true (collapseWs (normalizeChars l)) = false := by
  show hasMatch [gotyWord, gotyPhrase] true (collapseWs (normalizeChars l)) = false
  refine hasMatch_pair_of _ true ?_ ?_
  · exact hasMatch_collapse patsAllWord_gotyWord (normalizeChars l) false true
      (hasMatch_gotyWord_normalizeChars l)
  · exact phrase_article true (hasMatch_article_collapse_normalize l)

theorem normalize_pass2 (l : List Char) :
    normalizeChars (normalizeChars l) = jsTrim (collapseWs (normalizeChars l)) := by
  rw [normalizeChars_eq (normalizeChars l)]
  rw [charStage_id charP_normalize]
  simp only [scanStrip]
  rw [scanGo_id _ true _ le_rfl (hasMatch_article_collapse_normalize l)]
  rw [scanGo_id _ true _ le_rfl (hasMatch_qual_collapse_normalize l)]

theorem normalizeChars_third (l : List Char) :
    normalizeChars (normalizeChars (normalizeChars l)) =
      normalizeChars (normalizeChars l) := by
  have hu := normalize_pass2 l
  have hwsu : allWsSpace (normalizeChars (normalizeChars l)) = true := by
    rw [hu]
    exact allWsSpace_of_subset (fun c hc => mem_jsTrim hc) (allWsSpace_collapseGo _ false)
  have hadju : noAdjWs (normalizeChars (normalizeChars l)) = true := by
    rw [hu, jsTrim]
    have h1 : noAdjWs ((collapseWs (normalizeChars l)).dropWhile isJsWs) = true := by
      refine (@noAdjWs_append ((collapseWs (normalizeChars l)).takeWhile isJsWs)
        ((collapseWs (normalizeChars l)).dropWhile isJsWs) ?_).2
      rw [List.takeWhile_append_dropWhile]
      exact noAdjWs_collapseGo _ false
    obtain ⟨w, hw, _⟩ :=
      dropTrailingWs_decomp ((collapseWs (normalizeChars l)).dropWhile isJsWs)
    exact (@noAdjWs_append
      (dropTrailingWs ((collapseWs (normalizeChars l)).dropWhile isJsWs)) w
      (by rw [← hw]; exact h1)).1
  have hA3 : hasMatch articleWords true (normalizeChars (normalizeChars l)) = false := by
    rw [hu]
    exact hasMatch_jsTrim (hasMatch_article_collapse_normalize l)
  have hQ3 : hasMatch qualifierWords true (normalizeChars (normalizeChars l)) = false := by
    rw [hu]
    exact hasMatch_jsTrim (hasMatch_qual_collapse_normalize l)
  have htrim : jsTrim (normalizeChars (normalizeChars l)) =
      normalizeChars (normalizeChars l) := by
    rw [hu]
    exact jsTrim_idem _
  conv_lhs => rw [normalizeChars_eq]
  rw [charStage_id charP_normalize]
  rw [show collapseWs (normalizeChars (normalizeChars l)) =
        normalizeChars (normalizeChars l) from
      (collapseGo_id _ hwsu hadju).1]
  simp only [scanStrip]
  rw [scanGo_id _ true _ le_rfl hA3]
  rw [scanGo_id _ true _ le_rfl hQ3]
  exact htrim

/-- **C4** (counterexample): the claimed qualifier vocabulary is not removed.
The regular expression only ever removes the alternatives goty and
game-of-the-year-edition, so the title Halo Definitive keeps its
"definitive" qualifier as a whole word in the normalized output. -/
theorem c4_counterexample_definitive_not_removed :
    normalizeGameName (String.mk ['H', 'a', 'l', 'o', ' ', 'D', 'e', 'f', 'i',
        'n', 'i', 't', 'i', 'v', 'e']) =
      String.mk ['h', 'a', 'l', 'o', ' ', 'd', 'e', 'f', 'i', 'n', 'i', 't',
        'i', 'v', 'e'] ∧
      occursWord (String.mk ['d', 'e', 'f', 'i', 'n', 'i', 't', 'i', 'v', 'e'])
        (normalizeGameName (String.mk ['H', 'a', 'l', 'o', ' ', 'D', 'e', 'f',
          'i', 'n', 'i', 't', 'i', 'v', 'e'])) = true := by
  constructor
  · decide
  · decide

/-- **C4** (amended): the normalizer does remove the whole-word alternatives
of its actual regular expression; in particular the word "goty" never occurs
as a whole word in any normalized output. -/
theorem c4_goty_removed (s : String) :
    occursWord (String.mk ['g', 'o', 't', 'y']) (normalizeGameName s) = false := by
  have h := hasMatch_gotyWord_normalizeChars s.data
  show hasMatch [(String.mk ['g', 'o', 't', 'y']).data] true (normalizeChars s.data) = false
  rw [show (String.mk ['g', 'o', 't', 'y']).data = gotyWord from by decide]
  exact h

/-- **C5** (counterexample): normalize is not idempotent.  Removing the
article in "b the c" leaves two adjacent spaces, because the whitespace
collapse runs before the word removals; a second application collapses
them, so the first output differs from the second. -/
theorem c5_counterexample_not_idempotent :
    normalizeGameName (String.mk ['b', ' ', 't', 'h', 'e', ' ', 'c']) =
        String.mk ['b', ' ', ' ', 'c'] ∧
      normalizeGameName (normalizeGameName
          (String.mk ['b', ' ', 't', 'h', 'e', ' ', 'c'])) =
        String.mk ['b', ' ', 'c'] ∧
      normalizeGameName (normalizeGameName
          (String.mk ['b', ' ', 't', 'h', 'e', ' ', 'c'])) ≠
        normalizeGameName (String.mk ['b', ' ', 't', 'h', 'e', ' ', 'c']) := by
  refine ⟨by decide, by decide, by decide⟩

/-- **C5** (amended): normalize stabilizes after two applications — the
composite of two normalizations is idempotent, even though a single
normalization is not. -/
theorem c5_normalize_stabilizes (s : String) :
    normalizeGameName (normalizeGameName (normalizeGameName s)) =
      normalizeGameName (normalizeGameName s) := by
  have hd : ∀ t : String, (normalizeGameName t).data = normalizeChars t.data :=
    fun t => rfl
  apply String.ext
  simp only [hd]
  exact normalizeChars_third s.data

end GameKeeper
